import Mathlib

/-!
# Verification of the thread and client-registry examples

Three programs of the repository are embedded here.

* `Composite`: the last program of `Linux应用线程管理.c` (lines 273-310), `THREAD_NUM`
  workers that print and increment `counter` in round-robin order under a mutex and a
  condition variable.  One statement of a thread is one step; a schedule is a list of
  labels saying who moves next, and a condition wait may also end without a broadcast.
  The constants `THREAD_NUM` (3) and the loop bound (5) are parameters.  The end of
  `main` (`sleep(16)`, `printf`, `return 0`) is one step that ends the process and with
  it the detached workers; the model has no clock, so this step may come at any moment
  after the creation loop.
* `MutexDemo`: the mutex-protected counter of the same file (lines 144-167), with the
  number of threads (2) and the loop bound (100000) as parameters.
* `Registry`: the global client pointer of `linux应用内存管理.c`, called sequentially;
  `free` of an address that is not a live block is undefined and modelled by `none`.

The C `int` variables are integers without a bound; `counter_le` and `shared_counter_le`
show that they stay below the products of the parameters, hence within the range of `int`
for the constants of the source.  The operator `%` of C is `Int.tmod`.
-/

namespace Composite

/-- Program points of `worker` (lines 282-297) between two statements. -/
inductive PC
  | notStarted  -- `pthread_create` for this worker has not run yet
  | loopHead    -- the test `i < 5` of the `for` loop
  | lock        -- at `pthread_mutex_lock`, the mutex not yet obtained
  | check       -- the test `counter % THREAD_NUM != id`, mutex held
  | waiting     -- inside `pthread_cond_wait`: mutex released, blocked on `cond`
  | woken       -- inside `pthread_cond_wait`: woken up, the mutex not yet obtained again
  | print       -- at `printf`, mutex held
  | inc         -- at `counter++`, mutex held
  | broadcast   -- at `pthread_cond_broadcast`, mutex held
  | unlock      -- at `pthread_mutex_unlock`, mutex held
  | sleep       -- at `sleep(1)`, followed by `i++`
  | done        -- after `return NULL`
  deriving DecidableEq, Repr

/-- Local variables of one `worker` call: `id`, the loop index `i`, and the program point. -/
structure Worker where
  id : Int
  i : Nat
  pc : PC
  deriving DecidableEq, Repr

/-- Globals `counter`, `mutex` (its owner, if locked), the loop index of `main`,
the workers, the lines printed by the workers as pairs `(id, counter)`, and whether `main`
has printed its last line and returned, which ends the process. -/
structure State where
  counter : Int
  mutex : Option Nat
  created : Nat
  workers : List Worker
  out : List (Int × Int)
  exited : Bool
  deriving DecidableEq, Repr

/-- Who moves next. -/
inductive Label
  | create              -- `main` runs one iteration of its creation loop
  | run (t : Nat)       -- worker `t` executes its next statement
  | spurious (t : Nat)  -- worker `t` leaves its blocked state without a broadcast
  | exit                -- `main` runs `sleep(16)`, its `printf` and `return 0`
  deriving DecidableEq, Repr

/-- State before `main` runs: `counter = 0`, the mutex free, one not yet created worker
for each entry of `ids`. -/
def init (ids : List Int) : State :=
  { counter := 0, mutex := none, created := 0,
    workers := List.map (fun x : Int => { id := x, i := 0, pc := PC.notStarted }) ids,
    out := [], exited := false }

/-- The array `ids` filled by `main`: `ids[i] = i` for `i < THREAD_NUM`. -/
def mainIds (n : Nat) : List Int := List.map (fun k : Nat => (k : Int)) (List.range n)

/-- Effect of `pthread_cond_broadcast` on one worker: a blocked one is woken. -/
def wake (w : Worker) : Worker :=
  if w.pc = PC.waiting then { w with pc := PC.woken } else w

/-- One statement of `worker`, executed by worker `t` whose locals are `w`.
`none`: the worker cannot move (blocked, not created, or returned). -/
def workerStep (n rounds : Nat) (s : State) (t : Nat) (w : Worker) : Option State :=
  match w.pc with
  | PC.notStarted => none
  | PC.loopHead =>
      if w.i < rounds then some { s with workers := s.workers.set t { w with pc := PC.lock } }
      else some { s with workers := s.workers.set t { w with pc := PC.done } }
  | PC.lock =>
      if s.mutex = none then
        some { s with mutex := some t, workers := s.workers.set t { w with pc := PC.check } }
      else none
  | PC.check =>
      if Int.tmod s.counter (n : Int) ≠ w.id then
        some { s with mutex := none, workers := s.workers.set t { w with pc := PC.waiting } }
      else some { s with workers := s.workers.set t { w with pc := PC.print } }
  | PC.waiting => none
  | PC.woken =>
      if s.mutex = none then
        some { s with mutex := some t, workers := s.workers.set t { w with pc := PC.check } }
      else none
  | PC.print =>
      some { s with out := s.out ++ [(w.id, s.counter)],
                    workers := s.workers.set t { w with pc := PC.inc } }
  | PC.inc =>
      some { s with counter := s.counter + 1,
                    workers := s.workers.set t { w with pc := PC.broadcast } }
  | PC.broadcast =>
      some { s with workers := (s.workers.map wake).set t { w with pc := PC.unlock } }
  | PC.unlock =>
      some { s with mutex := none, workers := s.workers.set t { w with pc := PC.sleep } }
  | PC.sleep =>
      some { s with workers := s.workers.set t { w with i := w.i + 1, pc := PC.loopHead } }
  | PC.done => none

/-- One scheduling step. `create` is an iteration of the loop of `main` (lines 302-306),
`exit` the rest of `main` (lines 307-309), possible once the loop is over. After `exit`
the process has ended and nothing moves. -/
def step (n rounds : Nat) (s : State) (l : Label) : Option State :=
  if s.exited = true then none
  else
    match l with
    | Label.create =>
        match s.workers[s.created]? with
        | some w =>
            some { s with created := s.created + 1,
                          workers := s.workers.set s.created { w with pc := PC.loopHead } }
        | none => none
    | Label.run t =>
        match s.workers[t]? with
        | some w => workerStep n rounds s t w
        | none => none
    | Label.spurious t =>
        match s.workers[t]? with
        | some w =>
            if w.pc = PC.waiting then
              some { s with workers := s.workers.set t { w with pc := PC.woken } }
            else none
        | none => none
    | Label.exit =>
        if s.workers.length ≤ s.created then some { s with exited := true } else none

/-- Run a schedule; `none` when one of its labels is not enabled. -/
def exec (n rounds : Nat) (s : State) : List Label → Option State
  | [] => some s
  | l :: ls =>
      match step n rounds s l with
      | some s' => exec n rounds s' ls
      | none => none

/-- All workers have returned. -/
def allDone (s : State) : Bool := s.workers.all (fun w => w.pc = PC.done)

/-- Program points inside the critical section: after the wait loop, up to the unlock. -/
def inCS : PC → Bool
  | PC.print | PC.inc | PC.broadcast | PC.unlock => true
  | _ => false

/-- Guard counter: number of workers inside the critical section. -/
def guard (s : State) : Nat := s.workers.countP (fun w => inCS w.pc)

/-- Program points at which the worker owns the mutex. -/
def holds : PC → Bool
  | PC.check | PC.print | PC.inc | PC.broadcast | PC.unlock => true
  | _ => false

/-- The first `len` lines of the documented output: line `k` is `(k mod n, k)`. -/
def entries (n len : Nat) : List (Int × Int) :=
  List.map (fun k : Nat => (((k % n : Nat) : Int), (k : Int))) (List.range len)

/-- Labels that are statements of a worker or of the creation loop of `main`. -/
def Label.isProgram : Label → Bool
  | Label.create | Label.run _ => true
  | _ => false

/-- Labels that are spurious wakeups. -/
def Label.isSpurious : Label → Bool
  | Label.spurious _ => true
  | _ => false

/-- Number of spurious wakeups in a schedule. -/
def spuriousCount (sched : List Label) : Nat := sched.countP (fun l => l.isSpurious)

/-- The transitions of `step`, one constructor for each statement and outcome. -/
inductive Step (n rounds : Nat) (s : State) : Label → State → Prop
  | create (t : Nat) (w : Worker) (h0 : s.workers[t]? = some w) (ht : s.created = t) :
      Step n rounds s Label.create
        { s with created := s.created + 1,
                 workers := s.workers.set t { w with pc := PC.loopHead } }
  | enter (t : Nat) (w : Worker) (h0 : s.workers[t]? = some w) (hpc : w.pc = PC.loopHead)
      (hi : w.i < rounds) :
      Step n rounds s (Label.run t) { s with workers := s.workers.set t { w with pc := PC.lock } }
  | leave (t : Nat) (w : Worker) (h0 : s.workers[t]? = some w) (hpc : w.pc = PC.loopHead)
      (hi : ¬ w.i < rounds) :
      Step n rounds s (Label.run t) { s with workers := s.workers.set t { w with pc := PC.done } }
  | lock (t : Nat) (w : Worker) (h0 : s.workers[t]? = some w) (hpc : w.pc = PC.lock)
      (hm : s.mutex = none) :
      Step n rounds s (Label.run t)
        { s with mutex := some t, workers := s.workers.set t { w with pc := PC.check } }
  | block (t : Nat) (w : Worker) (h0 : s.workers[t]? = some w) (hpc : w.pc = PC.check)
      (hc : Int.tmod s.counter (n : Int) ≠ w.id) :
      Step n rounds s (Label.run t)
        { s with mutex := none, workers := s.workers.set t { w with pc := PC.waiting } }
  | pass (t : Nat) (w : Worker) (h0 : s.workers[t]? = some w) (hpc : w.pc = PC.check)
      (hc : Int.tmod s.counter (n : Int) = w.id) :
      Step n rounds s (Label.run t) { s with workers := s.workers.set t { w with pc := PC.print } }
  | reacquire (t : Nat) (w : Worker) (h0 : s.workers[t]? = some w) (hpc : w.pc = PC.woken)
      (hm : s.mutex = none) :
      Step n rounds s (Label.run t)
        { s with mutex := some t, workers := s.workers.set t { w with pc := PC.check } }
  | print (t : Nat) (w : Worker) (h0 : s.workers[t]? = some w) (hpc : w.pc = PC.print) :
      Step n rounds s (Label.run t)
        { s with out := s.out ++ [(w.id, s.counter)],
                 workers := s.workers.set t { w with pc := PC.inc } }
  | inc (t : Nat) (w : Worker) (h0 : s.workers[t]? = some w) (hpc : w.pc = PC.inc) :
      Step n rounds s (Label.run t)
        { s with counter := s.counter + 1,
                 workers := s.workers.set t { w with pc := PC.broadcast } }
  | broadcast (t : Nat) (w : Worker) (h0 : s.workers[t]? = some w) (hpc : w.pc = PC.broadcast) :
      Step n rounds s (Label.run t)
        { s with workers := (s.workers.map wake).set t { w with pc := PC.unlock } }
  | unlock (t : Nat) (w : Worker) (h0 : s.workers[t]? = some w) (hpc : w.pc = PC.unlock) :
      Step n rounds s (Label.run t)
        { s with mutex := none, workers := s.workers.set t { w with pc := PC.sleep } }
  | sleep (t : Nat) (w : Worker) (h0 : s.workers[t]? = some w) (hpc : w.pc = PC.sleep) :
      Step n rounds s (Label.run t)
        { s with workers := s.workers.set t { w with i := w.i + 1, pc := PC.loopHead } }
  | spurious (t : Nat) (w : Worker) (h0 : s.workers[t]? = some w) (hpc : w.pc = PC.waiting) :
      Step n rounds s (Label.spurious t)
        { s with workers := s.workers.set t { w with pc := PC.woken } }
  | exit (hc : s.workers.length ≤ s.created) (he : s.exited = false) :
      Step n rounds s Label.exit { s with exited := true }

/-- Every worker that owns a mutex-protected program point is the owner of the mutex. -/
def HolderInv (s : State) : Prop :=
  ∀ (t : Nat) (w : Worker), s.workers[t]? = some w → holds w.pc = true → s.mutex = some t

/-- The workers not yet created by `main` are exactly those from index `created` on. -/
def StartInv (s : State) : Prop :=
  ∀ (t : Nat) (w : Worker), s.workers[t]? = some w → (w.pc = PC.notStarted ↔ s.created ≤ t)

/-- The owner recorded in the mutex is a worker at a mutex-protected program point. -/
def OwnerInv (s : State) : Prop :=
  ∀ t : Nat, s.mutex = some t → ∃ w : Worker, s.workers[t]? = some w ∧ holds w.pc = true

/-- Program points strictly inside one iteration of the `for` loop. -/
def inLoop : PC → Bool
  | PC.notStarted | PC.loopHead | PC.done => false
  | _ => true

/-- Program points of an iteration after `counter++`. -/
def afterInc : PC → Bool
  | PC.broadcast | PC.unlock | PC.sleep => true
  | _ => false

/-- Increments of `counter` made so far by a worker. -/
def completed (w : Worker) : Nat := w.i + if afterInc w.pc = true then 1 else 0

/-- Number of `k < c` with `k % n = t`: the turns of worker `t` among the first `c`. -/
def turns (n t : Nat) : Nat → Nat
  | 0 => 0
  | c + 1 => turns n t c + if c % n = t then 1 else 0

/-- Worker `t` received the identity `t` from `main`. -/
def IdInv (s : State) : Prop :=
  ∀ (t : Nat) (w : Worker), s.workers[t]? = some w → w.id = (t : Int)

/-- The loop index stays within the bound, and is below it inside an iteration. -/
def LocalInv (rounds : Nat) (s : State) : Prop :=
  ∀ (t : Nat) (w : Worker), s.workers[t]? = some w →
    w.i ≤ rounds ∧ (inLoop w.pc = true → w.i < rounds) ∧ (w.pc = PC.done → w.i = rounds)

/-- A worker at `printf` or `counter++` has its turn. -/
def TurnInv (n : Nat) (s : State) : Prop :=
  ∀ (t : Nat) (w : Worker), s.workers[t]? = some w → (w.pc = PC.print ∨ w.pc = PC.inc) →
    Int.tmod s.counter (n : Int) = w.id

/-- Indicator of a worker standing at `counter++`. -/
def atInc (w : Worker) : Nat := if w.pc = PC.inc then 1 else 0

/-- Indicator of a worker standing at `pthread_cond_broadcast`. -/
def atBroadcast (w : Worker) : Nat := if w.pc = PC.broadcast then 1 else 0

/-- The printed lines are the first lines of the documented output: as many as the value of
`counter`, plus one while a worker stands between its `printf` and its `counter++`. -/
def OutInv (n : Nat) (s : State) : Prop :=
  s.out = entries n (s.counter.toNat + (s.workers.map atInc).sum)

/-- Each worker has made exactly the increments of its own turns. -/
def ProgressInv (n : Nat) (s : State) : Prop :=
  ∀ (t : Nat) (w : Worker), s.workers[t]? = some w → completed w = turns n t s.counter.toNat

/-- A worker blocked on `cond` although its turn has come is about to be woken:
some worker stands at `pthread_cond_broadcast`. -/
def WaitInv (n : Nat) (s : State) : Prop :=
  ∀ (t : Nat) (w : Worker), s.workers[t]? = some w → w.pc = PC.waiting →
    Int.tmod s.counter (n : Int) = w.id → 0 < (s.workers.map atBroadcast).sum

/-- Invariants of every system, whatever identities the workers were given. -/
structure BaseInv (s : State) : Prop where
  start : StartInv s
  holder : HolderInv s
  owner : OwnerInv s
  counter : 0 ≤ s.counter

/-- Invariants of the system started by `main`: `n` workers with identities `0 .. n-1`. -/
structure Inv (n rounds : Nat) (s : State) : Prop where
  base : BaseInv s
  ids : IdInv s
  len : s.workers.length = n
  loc : LocalInv rounds s
  turn : TurnInv n s
  out : OutInv n s
  progress : ProgressInv n s
  wait : WaitInv n s

/-- Weight of one iteration of the loop in the termination measure, for `T` workers. -/
def weight (T : Nat) : Nat := 8 + 2 * T

/-- Upper bound on the statements a worker still executes, counting two more
for every wakeup it may still receive from the broadcasts of its own iterations. -/
def potential (T rounds : Nat) (w : Worker) : Nat :=
  match w.pc with
  | PC.notStarted => weight T * (rounds - w.i) + 1
  | PC.loopHead => weight T * (rounds - w.i) + 1
  | PC.lock => weight T * (rounds - (w.i + 1)) + (8 + 2 * T)
  | PC.woken => weight T * (rounds - (w.i + 1)) + (8 + 2 * T)
  | PC.check => weight T * (rounds - (w.i + 1)) + (7 + 2 * T)
  | PC.waiting => weight T * (rounds - (w.i + 1)) + (6 + 2 * T)
  | PC.print => weight T * (rounds - (w.i + 1)) + (6 + 2 * T)
  | PC.inc => weight T * (rounds - (w.i + 1)) + (5 + 2 * T)
  | PC.broadcast => weight T * (rounds - (w.i + 1)) + (4 + 2 * T)
  | PC.unlock => weight T * (rounds - (w.i + 1)) + 3
  | PC.sleep => weight T * (rounds - (w.i + 1)) + 2
  | PC.done => 0

/-- Termination measure of a state: the creations and the return left to `main`, plus
the workers' potentials. -/
def measure (rounds : Nat) (s : State) : Nat :=
  (s.workers.length - s.created) + (if s.exited = true then 0 else 1) +
    (s.workers.map (potential s.workers.length rounds)).sum

/-- Bound on the number of statements executed by `main` and by `n` workers of `rounds`
iterations. -/
def stepBound (n rounds : Nat) : Nat := n * (weight n * rounds + 2) + 1

/-- The next statement of the worker is enabled in state `s`. -/
def canRun (s : State) (w : Worker) : Bool :=
  match w.pc with
  | PC.notStarted | PC.waiting | PC.done => false
  | PC.lock | PC.woken => s.mutex.isNone
  | _ => true

/-- A complete run of three workers with two iterations each: the workers are created,
then scheduled one after the other whenever they can move. -/
def demoSchedule : List Label :=
  List.replicate 3 Label.create ++ List.replicate 11 (Label.run 0) ++
  List.replicate 7 (Label.run 1) ++ List.replicate 2 (Label.run 0) ++
  List.replicate 4 (Label.run 1) ++ List.replicate 7 (Label.run 2) ++
  List.replicate 8 (Label.run 0) ++ List.replicate 8 (Label.run 1) ++
  List.replicate 10 (Label.run 2)

/-- State reached by `demoSchedule` with `THREAD_NUM = 3` and two iterations. -/
def demoFinal : State :=
  { counter := 6, mutex := none, created := 3,
    workers := [{ id := 0, i := 2, pc := PC.done }, { id := 1, i := 2, pc := PC.done },
                { id := 2, i := 2, pc := PC.done }],
    out := [(0, 0), (1, 1), (2, 2), (0, 3), (1, 4), (2, 5)], exited := false }

/-- A run in which worker 0 is created and executes its first iteration up to `sleep(1)`. -/
def sleepSchedule : List Label := Label.create :: List.replicate 7 (Label.run 0)

/-- State reached by `sleepSchedule` with the constants of the source. -/
def sleepState : State :=
  { counter := 1, mutex := none, created := 1,
    workers := [{ id := 0, i := 0, pc := PC.sleep }, { id := 1, i := 0, pc := PC.notStarted },
                { id := 2, i := 0, pc := PC.notStarted }],
    out := [(0, 0)], exited := false }

/-- A run after which worker 1 stands at `printf` while worker 0 is in `sleep(1)`. -/
def overlapSchedule : List Label :=
  List.replicate 2 Label.create ++ List.replicate 7 (Label.run 0) ++
  List.replicate 3 (Label.run 1)

/-- State reached by `overlapSchedule` with the constants of the source. -/
def overlapState : State :=
  { counter := 1, mutex := some 1, created := 2,
    workers := [{ id := 0, i := 0, pc := PC.sleep }, { id := 1, i := 0, pc := PC.print },
                { id := 2, i := 0, pc := PC.notStarted }],
    out := [(0, 0)], exited := false }

/-- A run in which `main` creates the three workers and returns before any of them has
executed a statement. -/
def earlyExitSchedule : List Label := List.replicate 3 Label.create ++ [Label.exit]

/-- State reached by `earlyExitSchedule` with the constants of the source. -/
def earlyExitState : State :=
  { counter := 0, mutex := none, created := 3,
    workers := [{ id := 0, i := 0, pc := PC.loopHead }, { id := 1, i := 0, pc := PC.loopHead },
                { id := 2, i := 0, pc := PC.loopHead }],
    out := [], exited := true }

/-- State of two workers with one iteration each in which worker 1 is blocked on the
condition variable and worker 0 has not executed a statement. -/
def spinState : State :=
  { counter := 0, mutex := none, created := 2,
    workers := [{ id := 0, i := 0, pc := PC.loopHead }, { id := 1, i := 0, pc := PC.waiting }],
    out := [], exited := false }

/-- Worker 1 wakes up without a broadcast `k` times, each time taking the mutex, finding
that it is not its turn and blocking again. -/
def spinCycles : Nat → List Label
  | 0 => []
  | k + 1 => Label.spurious 1 :: Label.run 1 :: Label.run 1 :: spinCycles k

/-- A run of `5 + 3 * k` steps that reaches `spinState`. -/
def spinSchedule (k : Nat) : List Label :=
  [Label.create, Label.create, Label.run 1, Label.run 1, Label.run 1] ++ spinCycles k

/-- Program points a worker can reach without ever passing the wait loop. -/
def beforeTurn : PC → Bool
  | PC.notStarted | PC.loopHead | PC.lock | PC.check | PC.waiting | PC.woken => true
  | _ => false

end Composite

namespace MutexDemo

/-- Program points of `thread_func` (lines 150-157). `shared_counter++` is a read of the
global into a register followed by a write of the register plus one. -/
inductive PC
  | notStarted  -- `pthread_create` for this thread has not run yet
  | loopHead    -- the test `i < 100000`
  | lock        -- at `pthread_mutex_lock`, the mutex not yet obtained
  | load        -- read of `shared_counter`, mutex held
  | store       -- write of `shared_counter`, mutex held
  | unlock      -- at `pthread_mutex_unlock`, followed by `i++`
  | done        -- after `return NULL`
  deriving DecidableEq, Repr

/-- Locals of one `thread_func` call: the loop index, the register, the program point. -/
structure Thread where
  i : Nat
  tmp : Int
  pc : PC
  deriving DecidableEq, Repr

/-- Globals `shared_counter` and `mutex` (its owner, if locked); the progress of `main`:
threads created, threads joined, the value printed; and the threads. -/
structure State where
  shared_counter : Int
  mutex : Option Nat
  created : Nat
  joined : Nat
  printed : Option Int
  threads : List Thread
  deriving DecidableEq, Repr

/-- Who moves next. -/
inductive Label
  | create         -- `main` executes its next `pthread_create`
  | join           -- `main` returns from its next `pthread_join`
  | print          -- `main` executes `printf`
  | run (t : Nat)  -- thread `t` executes its next statement
  deriving DecidableEq, Repr

/-- State before `main` runs, with `T` threads to create. -/
def init (T : Nat) : State :=
  { shared_counter := 0, mutex := none, created := 0, joined := 0, printed := none,
    threads := List.replicate T { i := 0, tmp := 0, pc := PC.notStarted } }

/-- One statement of `thread_func` with loop bound `K`, executed by thread `t`. -/
def threadStep (K : Nat) (s : State) (t : Nat) (w : Thread) : Option State :=
  match w.pc with
  | PC.notStarted => none
  | PC.loopHead =>
      if w.i < K then some { s with threads := s.threads.set t { w with pc := PC.lock } }
      else some { s with threads := s.threads.set t { w with pc := PC.done } }
  | PC.lock =>
      if s.mutex = none then
        some { s with mutex := some t, threads := s.threads.set t { w with pc := PC.load } }
      else none
  | PC.load =>
      some { s with threads := s.threads.set t { w with tmp := s.shared_counter, pc := PC.store } }
  | PC.store =>
      some { s with shared_counter := w.tmp + 1,
                    threads := s.threads.set t { w with pc := PC.unlock } }
  | PC.unlock =>
      some { s with mutex := none,
                    threads := s.threads.set t { w with i := w.i + 1, pc := PC.loopHead } }
  | PC.done => none

/-- One scheduling step. `main` (lines 159-167) creates all threads, then joins them in
order, each join waiting for the thread to have returned, then prints. -/
def step (K : Nat) (s : State) : Label → Option State
  | Label.create =>
      match s.threads[s.created]? with
      | some w =>
          some { s with created := s.created + 1,
                        threads := s.threads.set s.created { w with pc := PC.loopHead } }
      | none => none
  | Label.join =>
      if s.created = s.threads.length then
        match s.threads[s.joined]? with
        | some w => if w.pc = PC.done then some { s with joined := s.joined + 1 } else none
        | none => none
      else none
  | Label.print =>
      if s.joined = s.threads.length ∧ s.printed = none then
        some { s with printed := some s.shared_counter }
      else none
  | Label.run t =>
      match s.threads[t]? with
      | some w => threadStep K s t w
      | none => none

/-- Run a schedule; `none` when one of its labels is not enabled. -/
def exec (K : Nat) (s : State) : List Label → Option State
  | [] => some s
  | l :: ls =>
      match step K s l with
      | some s' => exec K s' ls
      | none => none

/-- All threads have returned. -/
def allDone (s : State) : Bool := s.threads.all (fun w => w.pc = PC.done)

/-- Program points at which the thread owns the mutex. -/
def holds : PC → Bool
  | PC.load | PC.store | PC.unlock => true
  | _ => false

/-- Increments of `shared_counter` made so far by a thread. -/
def completed (w : Thread) : Nat := w.i + if w.pc = PC.unlock then 1 else 0

/-- A run of two threads with one iteration each, the second thread starting its
increment only after the first has released the mutex. -/
def demoSchedule : List Label :=
  List.replicate 2 Label.create ++ List.replicate 2 (Label.run 0) ++
  List.replicate 1 (Label.run 1) ++ List.replicate 4 (Label.run 0) ++
  List.replicate 5 (Label.run 1) ++ List.replicate 2 Label.join ++ [Label.print]

/-- State reached by `demoSchedule`. -/
def demoFinal : State :=
  { shared_counter := 2, mutex := none, created := 2, joined := 2, printed := some 2,
    threads := [{ i := 1, tmp := 0, pc := PC.done }, { i := 1, tmp := 1, pc := PC.done }] }

/-- The transitions of `step`, one constructor for each statement and outcome. -/
inductive Step (K : Nat) (s : State) : Label → State → Prop
  | create (t : Nat) (w : Thread) (h0 : s.threads[t]? = some w) (ht : s.created = t) :
      Step K s Label.create
        { s with created := s.created + 1,
                 threads := s.threads.set t { w with pc := PC.loopHead } }
  | enter (t : Nat) (w : Thread) (h0 : s.threads[t]? = some w) (hpc : w.pc = PC.loopHead)
      (hi : w.i < K) :
      Step K s (Label.run t) { s with threads := s.threads.set t { w with pc := PC.lock } }
  | leave (t : Nat) (w : Thread) (h0 : s.threads[t]? = some w) (hpc : w.pc = PC.loopHead)
      (hi : ¬ w.i < K) :
      Step K s (Label.run t) { s with threads := s.threads.set t { w with pc := PC.done } }
  | lock (t : Nat) (w : Thread) (h0 : s.threads[t]? = some w) (hpc : w.pc = PC.lock)
      (hm : s.mutex = none) :
      Step K s (Label.run t)
        { s with mutex := some t, threads := s.threads.set t { w with pc := PC.load } }
  | load (t : Nat) (w : Thread) (h0 : s.threads[t]? = some w) (hpc : w.pc = PC.load) :
      Step K s (Label.run t)
        { s with threads :=
            s.threads.set t { w with tmp := s.shared_counter, pc := PC.store } }
  | store (t : Nat) (w : Thread) (h0 : s.threads[t]? = some w) (hpc : w.pc = PC.store) :
      Step K s (Label.run t)
        { s with shared_counter := w.tmp + 1,
                 threads := s.threads.set t { w with pc := PC.unlock } }
  | unlock (t : Nat) (w : Thread) (h0 : s.threads[t]? = some w) (hpc : w.pc = PC.unlock) :
      Step K s (Label.run t)
        { s with mutex := none,
                 threads := s.threads.set t { w with i := w.i + 1, pc := PC.loopHead } }
  | join (t : Nat) (w : Thread) (h0 : s.threads[t]? = some w) (ht : s.joined = t)
      (hc : s.created = s.threads.length) (hpc : w.pc = PC.done) :
      Step K s Label.join { s with joined := s.joined + 1 }
  | print (hj : s.joined = s.threads.length) (hp : s.printed = none) :
      Step K s Label.print { s with printed := some s.shared_counter }

/-- Bound on the statements a thread still executes. -/
def potential (K : Nat) (w : Thread) : Nat :=
  match w.pc with
  | PC.notStarted => 5 * (K - w.i) + 1
  | PC.loopHead => 5 * (K - w.i) + 1
  | PC.lock => 5 * (K - (w.i + 1)) + 5
  | PC.load => 5 * (K - (w.i + 1)) + 4
  | PC.store => 5 * (K - (w.i + 1)) + 3
  | PC.unlock => 5 * (K - (w.i + 1)) + 2
  | PC.done => 0

/-- Termination measure: steps left to `main` plus the potentials of the threads. -/
def measure (K : Nat) (s : State) : Nat :=
  (s.threads.length - s.created) + (s.threads.length - s.joined) +
    (if s.printed = none then 1 else 0) + (s.threads.map (potential K)).sum

/-- The next statement of the thread is enabled in state `s`. -/
def canRun (s : State) (w : Thread) : Bool :=
  match w.pc with
  | PC.notStarted | PC.done => false
  | PC.lock => s.mutex.isNone
  | _ => true

/-- Invariants of the demo with `T` threads of `K` iterations. -/
structure Inv (T K : Nat) (s : State) : Prop where
  len : s.threads.length = T
  start : ∀ (t : Nat) (w : Thread), s.threads[t]? = some w →
    (w.pc = PC.notStarted ↔ s.created ≤ t)
  holder : ∀ (t : Nat) (w : Thread), s.threads[t]? = some w → holds w.pc = true →
    s.mutex = some t
  owner : ∀ t : Nat, s.mutex = some t →
    ∃ w : Thread, s.threads[t]? = some w ∧ holds w.pc = true
  tmp : ∀ (t : Nat) (w : Thread), s.threads[t]? = some w → w.pc = PC.store →
    w.tmp = s.shared_counter
  total : s.shared_counter = (((s.threads.map completed).sum : Nat) : Int)
  loc : ∀ (t : Nat) (w : Thread), s.threads[t]? = some w →
    w.i ≤ K ∧ (holds w.pc = true ∨ w.pc = PC.lock → w.i < K) ∧ (w.pc = PC.done → w.i = K)
  main : s.created ≤ s.threads.length ∧ s.joined ≤ s.threads.length ∧
    (∀ (t : Nat) (w : Thread), s.threads[t]? = some w → t < s.joined → w.pc = PC.done)
  printed : ∀ v : Int, s.printed = some v →
    v = ((T * K : Nat) : Int) ∧ s.joined = s.threads.length

end MutexDemo

namespace Registry

/-- The error numbers defined in the source (lines 26-27). -/
def EINVAL : Int := 22

/-- See `EINVAL`. -/
def ENOMEM : Int := 12

/-- The type `struct client_data` (lines 7-12). `name` holds the 32 bytes of `char name[32]`;
pointers are addresses, `0` is `NULL`. -/
structure client_data where
  id : Int
  name : List Nat
  status : Nat
  private_data : Nat
  deriving DecidableEq, Repr

/-- A line written by one of the macros `pr_info`, `pr_err`, `pr_warn`: the stream prefix
and the name of the calling function, or the line of `main` with its arguments `%d` and `%s`. -/
inductive Msg
  | info (func text : String)
  | warn (func text : String)
  | err (func text : String)
  | client (id : Int) (name : List Nat)
  deriving DecidableEq, Repr

/-- The global pointer `global_client`, the live `malloc` blocks with their contents,
and the lines printed so far. Calls are sequential, as in `main`, so the lock/unlock
pairs on `client_mutex` are not visible between calls and are left out. -/
structure State where
  global_client : Nat
  heap : List (Nat × client_data)
  log : List Msg
  deriving DecidableEq, Repr

/-- State at program start: `global_client = NULL`, nothing allocated. -/
def init : State := { global_client := 0, heap := [], log := [] }

/-- Content of the live block at address `p`. -/
def load (heap : List (Nat × client_data)) (p : Nat) : Option client_data :=
  (heap.find? (fun e => e.1 = p)).map (fun e => e.2)

/-- A block at address `p` is live. -/
def live (heap : List (Nat × client_data)) (p : Nat) : Bool := (load heap p).isSome

/-- Library function `free(p)`. `free(NULL)` does nothing; a live block is released; for
any other address the behaviour is undefined in C, which is the result `none`. -/
def free (heap : List (Nat × client_data)) (p : Nat) : Option (List (Nat × client_data)) :=
  if p = 0 then some heap
  else if live heap p = true then some (heap.filter (fun e => e.1 ≠ p))
  else none

/-- Assignment to fields of the block at `p`. -/
def store (heap : List (Nat × client_data)) (p : Nat) (f : client_data → client_data) :
    List (Nat × client_data) :=
  heap.map (fun e => if e.1 = p then (e.1, f e.2) else e)

/-- Library function `strncpy(dst, src, n)` for a source string `src` given without its
terminator: `n` bytes of `dst` are overwritten by the string, cut or padded with NUL. -/
def strncpy (dst src : List Nat) (n : Nat) : List Nat :=
  src.take n ++ List.replicate (n - src.length) 0 ++ dst.drop n

/-- The C string stored in a byte array: the bytes before the first NUL. -/
def cstring (bytes : List Nat) : List Nat := bytes.takeWhile (fun b => b ≠ 0)

/-- The bytes of the literal `"default_client"`. -/
def default_client : List Nat := "default_client".toList.map Char.toNat

/-- Function `set_client` (lines 35-52). `none`: the call runs into undefined behaviour. -/
def set_client (client : Nat) (s : State) : Option (Int × State) :=
  if client = 0 then
    some (-EINVAL, { s with log := s.log ++ [Msg.err "set_client" "Invalid client pointer"] })
  else
    let freed : Option State :=
      if s.global_client ≠ 0 then
        match free s.heap s.global_client with
        | some h =>
            some { s with log := s.log ++ [Msg.warn "set_client" "Overwriting existing client"],
                          heap := h }
        | none => none
      else some s
    match freed with
    | some s1 =>
        some (0, { s1 with global_client := client,
                           log := s1.log ++ [Msg.info "set_client" "Client set successfully"] })
    | none => none

/-- Function `get_client` (lines 59-68). -/
def get_client (s : State) : Nat × State := (s.global_client, s)

/-- Function `client_init` (lines 75-104). `p` is the result of `malloc` (`0` when it
fails) and `garbage` the uninitialised content of the new block. -/
def client_init (p : Nat) (garbage : client_data) (s : State) : Option (Int × State) :=
  if p = 0 then
    some (-ENOMEM,
      { s with log := s.log ++ [Msg.err "client_init" "Failed to allocate memory for client"] })
  else
    let h0 := (p, garbage) :: s.heap
    let h1 := store h0 p (fun c => { c with id := 1 })
    let h2 := store h1 p (fun c => { c with name := strncpy c.name default_client (32 - 1) })
    let h3 := store h2 p (fun c => { c with name := c.name.set (32 - 1) 0 })
    let h4 := store h3 p (fun c => { c with status := 0 })
    let h5 := store h4 p (fun c => { c with private_data := 0 })
    match set_client p { s with heap := h5 } with
    | some r =>
        if r.1 ≠ 0 then
          match free r.2.heap p with
          | some h =>
              some (r.1, { r.2 with log := r.2.log ++ [Msg.err "client_init" "Failed to set client"],
                                    heap := h })
          | none => none
        else
          some (0, { r.2 with
            log := r.2.log ++ [Msg.info "client_init" "Client initialized successfully"] })
    | none => none

/-- Function `client_cleanup` (lines 109-118). -/
def client_cleanup (s : State) : Option State :=
  if s.global_client ≠ 0 then
    match free s.heap s.global_client with
    | some h =>
        some { s with heap := h, global_client := 0,
                      log := s.log ++ [Msg.info "client_cleanup" "Client data freed"] }
    | none => none
  else some s

/-- Function `main` (lines 121-141): the exit status and the final state. -/
def main (p : Nat) (garbage : client_data) (s : State) : Option (Int × State) :=
  match client_init p garbage s with
  | some r =>
      if r.1 ≠ 0 then some r
      else
        let g := get_client r.2
        let s1 : State :=
          if g.1 ≠ 0 then
            match load g.2.heap g.1 with
            | some c => { g.2 with log := g.2.log ++ [Msg.client c.id (cstring c.name)] }
            | none => g.2
          else g.2
        match client_cleanup s1 with
        | some s2 => some (0, s2)
        | none => none
  | none => none

/-- The content written by `client_init` into the new block. -/
def default_data : client_data :=
  { id := 1, name := default_client ++ List.replicate 18 0, status := 0, private_data := 0 }

/-- Representation invariant of the registry: `global_client` is `NULL` or the address of
a live block. -/
def wellFormed (s : State) : Prop := s.global_client = 0 ∨ live s.heap s.global_client = true

/-- A registry with two live blocks, at 100 and 200, and no client set. -/
def twoBlocks : State :=
  { global_client := 0, heap := [(100, default_data), (200, default_data)], log := [] }

/-- The registry `twoBlocks` after `set_client(100)`. -/
def ownedState : State :=
  { global_client := 100, heap := [(100, default_data), (200, default_data)],
    log := [Msg.info "set_client" "Client set successfully"] }

/-- The registry `ownedState` after a second `set_client(100)`: the block at 100 has been
freed and `global_client` still holds its address. -/
def danglingState : State :=
  { global_client := 100, heap := [(200, default_data)],
    log := [Msg.info "set_client" "Client set successfully",
            Msg.warn "set_client" "Overwriting existing client",
            Msg.info "set_client" "Client set successfully"] }

end Registry

/-! ## Facts about lists -/

section ListFacts

variable {α : Type}

/-- Reading a list after one position has been overwritten. -/
theorem lookup_set_iff (l : List α) (t0 t : Nat) (a w : α) :
    (l.set t0 a)[t]? = some w ↔
      (t = t0 ∧ t0 < l.length ∧ w = a) ∨ (t ≠ t0 ∧ l[t]? = some w) := by
  rw [List.getElem?_set]
  by_cases h : t0 = t
  · subst h
    by_cases hl : t0 < l.length
    · simp [hl, eq_comm]
    · simp [hl]
  · have h' : t ≠ t0 := fun e => h e.symm
    simp [h, h']

/-- Overwriting one position changes a sum over the list by the difference at that position. -/
theorem sum_map_set (f : α → Nat) (l : List α) (t0 : Nat) (w0 a : α) (h0 : l[t0]? = some w0) :
    ((l.set t0 a).map f).sum + f w0 = (l.map f).sum + f a := by
  induction l generalizing t0 with
  | nil => simp at h0
  | cons x xs ih =>
    cases t0 with
    | zero =>
      simp at h0
      subst h0
      simp [List.set]
      omega
    | succ k =>
      simp at h0
      have := ih k h0
      simp only [List.set, List.map_cons, List.sum_cons]
      omega

/-- A pointwise bound on the summands bounds the sum. -/
theorem sum_map_le_add (f g : α → Nat) (c : Nat) (l : List α) (h : ∀ x, g x ≤ f x + c) :
    (l.map g).sum ≤ (l.map f).sum + c * l.length := by
  induction l with
  | nil => simp
  | cons x xs ih =>
    simp only [List.map_cons, List.sum_cons, List.length_cons]
    have := h x
    rw [Nat.mul_succ]
    omega

/-- If any two positions satisfying `p` coincide, at most one element satisfies `p`. -/
theorem countP_le_one (p : α → Bool) (l : List α)
    (h : ∀ (t1 t2 : Nat) (w1 w2 : α), l[t1]? = some w1 → l[t2]? = some w2 → p w1 = true → p w2 = true →
      t1 = t2) : l.countP p ≤ 1 := by
  induction l with
  | nil => simp
  | cons x xs ih =>
    have hxs : xs.countP p ≤ 1 := by
      apply ih
      intro t1 t2 w1 w2 h1 h2 p1 p2
      have := h (t1 + 1) (t2 + 1) w1 w2 (by simpa using h1) (by simpa using h2) p1 p2
      omega
    by_cases hx : p x = true
    · have hz : xs.countP p = 0 := by
        rw [List.countP_eq_zero]
        intro w hw pw
        obtain ⟨k, hk, rfl⟩ := List.getElem_of_mem hw
        have := h 0 (k + 1) x xs[k] (by simp) (by simp [hk]) hx pw
        omega
      rw [List.countP_cons_of_pos _ _ hx, hz]
    · rw [List.countP_cons_of_neg _ _ hx]
      exact hxs

theorem lookup_range (n t k : Nat) (h : (List.range n)[t]? = some k) : k = t ∧ t < n := by
  obtain ⟨hl, hk⟩ := List.getElem?_eq_some_iff.1 h
  rw [List.getElem_range] at hk
  simp only [List.length_range] at hl
  exact ⟨hk.symm, hl⟩

theorem le_sum_map (f : α → Nat) (l : List α) (t0 : Nat) (w0 : α) (h0 : l[t0]? = some w0) :
    f w0 ≤ (l.map f).sum := by
  induction l generalizing t0 with
  | nil => simp at h0
  | cons x xs ih =>
    cases t0 with
    | zero =>
      simp at h0
      subst h0
      simp
    | succ k =>
      simp at h0
      have := ih k h0
      simp only [List.map_cons, List.sum_cons]
      omega

theorem sum_map_set_eq (f : α → Nat) (l : List α) (t0 : Nat) (w0 a : α)
    (h0 : l[t0]? = some w0) :
    ((l.set t0 a).map f).sum = (l.map f).sum - f w0 + f a := by
  have h1 := sum_map_set f l t0 w0 a h0
  have h2 := le_sum_map f l t0 w0 h0
  omega

theorem sum_map_eq_zero (f : α → Nat) (l : List α)
    (h : ∀ (t : Nat) (w : α), l[t]? = some w → f w = 0) : (l.map f).sum = 0 := by
  rw [List.sum_eq_zero_iff]
  intro x hx
  obtain ⟨w, hw, rfl⟩ := List.mem_map.1 hx
  obtain ⟨k, hk, rfl⟩ := List.getElem_of_mem hw
  exact h k l[k] (by simp [hk])

end ListFacts

/-! ## The round-robin workers -/

namespace Composite

theorem step_sound {n rounds : Nat} {s s' : State} {l : Label}
    (h : step n rounds s l = some s') : Step n rounds s l s' := by
  unfold step at h
  split at h
  · simp at h
  rename_i hex
  have he : s.exited = false := by simpa using hex
  cases l with
  | exit =>
    simp only at h
    split at h
    · rename_i hc
      simp only [Option.some.injEq] at h
      subst h
      exact Step.exit hc he
    · simp at h
  | create =>
    simp only at h
    split at h
    · rename_i w hw
      simp only [Option.some.injEq] at h
      subst h
      exact Step.create s.created w hw rfl
    · simp at h
  | run t =>
    simp only at h
    split at h
    · rename_i w hw
      simp only [workerStep] at h
      split at h
      · simp at h
      · rename_i hpc
        split at h
        · rename_i hi
          simp only [Option.some.injEq] at h
          subst h
          exact Step.enter t w hw hpc hi
        · rename_i hi
          simp only [Option.some.injEq] at h
          subst h
          exact Step.leave t w hw hpc hi
      · rename_i hpc
        split at h
        · rename_i hm
          simp only [Option.some.injEq] at h
          subst h
          exact Step.lock t w hw hpc hm
        · simp at h
      · rename_i hpc
        split at h
        · rename_i hc
          simp only [Option.some.injEq] at h
          subst h
          exact Step.block t w hw hpc hc
        · rename_i hc
          simp only [Option.some.injEq] at h
          subst h
          exact Step.pass t w hw hpc (by simpa using hc)
      · simp at h
      · rename_i hpc
        split at h
        · rename_i hm
          simp only [Option.some.injEq] at h
          subst h
          exact Step.reacquire t w hw hpc hm
        · simp at h
      · rename_i hpc
        simp only [Option.some.injEq] at h
        subst h
        exact Step.print t w hw hpc
      · rename_i hpc
        simp only [Option.some.injEq] at h
        subst h
        exact Step.inc t w hw hpc
      · rename_i hpc
        simp only [Option.some.injEq] at h
        subst h
        exact Step.broadcast t w hw hpc
      · rename_i hpc
        simp only [Option.some.injEq] at h
        subst h
        exact Step.unlock t w hw hpc
      · rename_i hpc
        simp only [Option.some.injEq] at h
        subst h
        exact Step.sleep t w hw hpc
      · simp at h
    · simp at h
  | spurious t =>
    simp only at h
    split at h
    · rename_i w hw
      split at h
      · rename_i hpc
        simp only [Option.some.injEq] at h
        subst h
        exact Step.spurious t w hw hpc
      · simp at h
    · simp at h

@[simp] theorem holds_eval :
    holds PC.notStarted = false ∧ holds PC.loopHead = false ∧ holds PC.lock = false ∧
    holds PC.check = true ∧ holds PC.waiting = false ∧ holds PC.woken = false ∧
    holds PC.print = true ∧ holds PC.inc = true ∧ holds PC.broadcast = true ∧
    holds PC.unlock = true ∧ holds PC.sleep = false ∧ holds PC.done = false := by
  decide

@[simp] theorem inCS_eval :
    inCS PC.notStarted = false ∧ inCS PC.loopHead = false ∧ inCS PC.lock = false ∧
    inCS PC.check = false ∧ inCS PC.waiting = false ∧ inCS PC.woken = false ∧
    inCS PC.print = true ∧ inCS PC.inc = true ∧ inCS PC.broadcast = true ∧
    inCS PC.unlock = true ∧ inCS PC.sleep = false ∧ inCS PC.done = false := by
  decide

@[simp] theorem holds_wake (w : Worker) : holds (wake w).pc = holds w.pc := by
  unfold wake; split <;> simp_all

theorem holderInv_step {n rounds : Nat} {s s' : State} {l : Label}
    (hI : HolderInv s) (hs : Step n rounds s l s') : HolderInv s' := by
  intro t w hw hh
  cases hs with
  | exit hc he => exact hI t w hw hh
  | _ t0 w0 h0 =>
    simp only [lookup_set_iff, List.getElem?_map, Option.map_eq_some'] at hw
    have h1 := hI t0 w0 h0
    rcases hw with ⟨rfl, -, rfl⟩ | ⟨hne, hw⟩
    · simp_all
    · first
      | (obtain ⟨u, hu, rfl⟩ := hw
         have h2 := hI t u hu
         simp_all)
      | (have h2 := hI t w hw
         simp_all)

@[simp] theorem wake_pc_notStarted (w : Worker) :
    (wake w).pc = PC.notStarted ↔ w.pc = PC.notStarted := by
  unfold wake; split <;> simp_all

theorem startInv_step {n rounds : Nat} {s s' : State} {l : Label}
    (hI : StartInv s) (hs : Step n rounds s l s') : StartInv s' := by
  intro t w hw
  cases hs with
  | exit hc he => exact hI t w hw
  | _ t0 w0 h0 =>
    simp only [lookup_set_iff, List.getElem?_map, Option.map_eq_some'] at hw
    have h1 := hI t0 w0 h0
    rcases hw with ⟨rfl, -, rfl⟩ | ⟨hne, hw⟩
    · simp_all
    · first
      | (obtain ⟨u, hu, rfl⟩ := hw
         have h2 := hI t u hu
         simp_all)
      | (have h2 := hI t w hw
         simp_all
         try omega)

theorem ownerInv_step {n rounds : Nat} {s s' : State} {l : Label}
    (hS : StartInv s) (hI : OwnerInv s) (hs : Step n rounds s l s') : OwnerInv s' := by
  intro t hm
  cases hs with
  | exit hc he => exact hI t hm
  | _ t0 w0 h0 =>
    simp only [lookup_set_iff, List.getElem?_map, Option.map_eq_some']
    have hlen : t0 < s.workers.length := (List.getElem?_eq_some_iff.1 h0).1
    have h1 := hI t
    have h2 := hS t0 w0 h0
    by_cases ht : t = t0
    · subst ht
      simp_all
    · simp_all

@[simp] theorem inLoop_eval :
    inLoop PC.notStarted = false ∧ inLoop PC.loopHead = false ∧ inLoop PC.lock = true ∧
    inLoop PC.check = true ∧ inLoop PC.waiting = true ∧ inLoop PC.woken = true ∧
    inLoop PC.print = true ∧ inLoop PC.inc = true ∧ inLoop PC.broadcast = true ∧
    inLoop PC.unlock = true ∧ inLoop PC.sleep = true ∧ inLoop PC.done = false := by
  decide

@[simp] theorem afterInc_eval :
    afterInc PC.notStarted = false ∧ afterInc PC.loopHead = false ∧ afterInc PC.lock = false ∧
    afterInc PC.check = false ∧ afterInc PC.waiting = false ∧ afterInc PC.woken = false ∧
    afterInc PC.print = false ∧ afterInc PC.inc = false ∧ afterInc PC.broadcast = true ∧
    afterInc PC.unlock = true ∧ afterInc PC.sleep = true ∧ afterInc PC.done = false := by
  decide

@[simp] theorem wake_id (w : Worker) : (wake w).id = w.id := by
  unfold wake; split <;> rfl

@[simp] theorem wake_i (w : Worker) : (wake w).i = w.i := by
  unfold wake; split <;> rfl

@[simp] theorem inLoop_wake (w : Worker) : inLoop (wake w).pc = inLoop w.pc := by
  unfold wake; split <;> simp_all

@[simp] theorem afterInc_wake (w : Worker) : afterInc (wake w).pc = afterInc w.pc := by
  unfold wake; split <;> simp_all

@[simp] theorem wake_pc_done (w : Worker) : (wake w).pc = PC.done ↔ w.pc = PC.done := by
  unfold wake; split <;> simp_all

@[simp] theorem wake_pc_print (w : Worker) : (wake w).pc = PC.print ↔ w.pc = PC.print := by
  unfold wake; split <;> simp_all

@[simp] theorem wake_pc_inc (w : Worker) : (wake w).pc = PC.inc ↔ w.pc = PC.inc := by
  unfold wake; split <;> simp_all

@[simp] theorem wake_pc_broadcast (w : Worker) :
    (wake w).pc = PC.broadcast ↔ w.pc = PC.broadcast := by
  unfold wake; split <;> simp_all

@[simp] theorem wake_pc_waiting (w : Worker) : (wake w).pc ≠ PC.waiting := by
  unfold wake; split <;> simp_all

@[simp] theorem completed_wake (w : Worker) : completed (wake w) = completed w := by
  simp [completed]

theorem idInv_step {n rounds : Nat} {s s' : State} {l : Label}
    (hI : IdInv s) (hs : Step n rounds s l s') : IdInv s' := by
  intro t w hw
  cases hs with
  | exit hc he => exact hI t w hw
  | _ t0 w0 h0 =>
    simp only [lookup_set_iff, List.getElem?_map, Option.map_eq_some'] at hw
    have h1 := hI t0 w0 h0
    rcases hw with ⟨rfl, -, rfl⟩ | ⟨hne, hw⟩
    · simp_all
    · first
      | (obtain ⟨u, hu, rfl⟩ := hw
         have h2 := hI t u hu
         simp_all)
      | (have h2 := hI t w hw
         simp_all)

theorem length_step {n rounds : Nat} {s s' : State} {l : Label}
    (hs : Step n rounds s l s') : s'.workers.length = s.workers.length := by
  cases hs <;> simp

theorem counter_step {n rounds : Nat} {s s' : State} {l : Label}
    (hI : 0 ≤ s.counter) (hs : Step n rounds s l s') : 0 ≤ s'.counter := by
  cases hs <;> simp <;> omega

theorem localInv_step {n rounds : Nat} {s s' : State} {l : Label}
    (hI : LocalInv rounds s) (hs : Step n rounds s l s') : LocalInv rounds s' := by
  intro t w hw
  cases hs with
  | exit hc he => exact hI t w hw
  | _ t0 w0 h0 =>
    simp only [lookup_set_iff, List.getElem?_map, Option.map_eq_some'] at hw
    have h1 := hI t0 w0 h0
    rcases hw with ⟨rfl, -, rfl⟩ | ⟨hne, hw⟩
    · simp_all
      try omega
    · first
      | (obtain ⟨u, hu, rfl⟩ := hw
         have h2 := hI t u hu
         simp_all)
      | (have h2 := hI t w hw
         simp_all)

theorem turnInv_step {n rounds : Nat} {s s' : State} {l : Label}
    (hH : HolderInv s) (hI : TurnInv n s) (hs : Step n rounds s l s') : TurnInv n s' := by
  intro t w hw hpc
  cases hs with
  | exit hc he => exact hI t w hw hpc
  | _ t0 w0 h0 =>
    simp only [lookup_set_iff, List.getElem?_map, Option.map_eq_some'] at hw
    have h1 := hI t0 w0 h0
    have h3 := hH t0 w0 h0
    rcases hw with ⟨rfl, -, rfl⟩ | ⟨hne, hw⟩
    · simp_all
    · first
      | (obtain ⟨u, hu, rfl⟩ := hw
         have h2 := hI t u hu
         have h4 := hH t u hu
         simp_all)
      | (have h2 := hI t w hw
         have h4 := hH t w hw
         rcases hpc with hpc | hpc <;> simp_all)

@[simp] theorem atInc_wake (w : Worker) : atInc (wake w) = atInc w := by
  simp [atInc]

@[simp] theorem atBroadcast_wake (w : Worker) : atBroadcast (wake w) = atBroadcast w := by
  simp [atBroadcast]

theorem sum_map_wake (f : Worker → Nat) (hf : ∀ w, f (wake w) = f w) (l : List Worker) :
    ((l.map wake).map f).sum = (l.map f).sum := by
  simp [List.map_map, Function.comp_def, hf]

theorem lookup_wake {l : List Worker} {t0 : Nat} {w0 : Worker} (h0 : l[t0]? = some w0) :
    (l.map wake)[t0]? = some (wake w0) := by
  simp [h0]

theorem tmod_cast (x : Int) (n : Nat) (hx : 0 ≤ x) :
    Int.tmod x (n : Int) = ((x.toNat % n : Nat) : Int) := by
  obtain ⟨c, rfl⟩ := Int.eq_ofNat_of_zero_le hx
  rw [Int.toNat_ofNat]
  exact (Int.ofNat_tmod c n).symm

theorem entries_succ (n c : Nat) :
    entries n (c + 1) = entries n c ++ [(((c % n : Nat) : Int), (c : Int))] := by
  simp [entries, List.range_succ]

theorem outInv_step {n rounds : Nat} {s s' : State} {l : Label}
    (hS : StartInv s) (hH : HolderInv s) (hT : TurnInv n s) (hC : 0 ≤ s.counter)
    (hI : OutInv n s) (hs : Step n rounds s l s') : OutInv n s' := by
  unfold OutInv at hI ⊢
  cases hs with
  | exit hc he => exact hI
  | print t0 w0 h0 hpc =>
    have hz : (s.workers.map atInc).sum = 0 := by
      apply sum_map_eq_zero
      intro t w hw
      by_contra hne
      have hw' : w.pc = PC.inc := by
        unfold atInc at hne
        by_contra h
        simp [h] at hne
      have h1 := hH t w hw (by simp [hw'])
      have h2 := hH t0 w0 h0 (by simp [hpc])
      rw [h1] at h2
      cases h2
      rw [h0] at hw
      cases hw
      rw [hpc] at hw'
      cases hw'
    have hid := hT t0 w0 h0 (Or.inl hpc)
    rw [tmod_cast _ _ hC] at hid
    have hc : s.counter = ((s.counter.toNat : Nat) : Int) := (Int.toNat_of_nonneg hC).symm
    simp only [sum_map_set_eq atInc _ _ w0 _ h0]
    rw [hz] at hI
    simp only [atInc, hpc, hz]
    simp only [Nat.add_zero] at hI
    simp only [if_true, Nat.zero_sub, Nat.zero_add, reduceIte]
    rw [entries_succ, hI, ← hid, ← hc]
  | inc t0 w0 h0 hpc =>
    have h1 := le_sum_map atInc _ _ _ h0
    simp only [sum_map_set_eq atInc _ _ w0 _ h0]
    have e1 : atInc w0 = 1 := by simp [atInc, hpc]
    have e2 : atInc { w0 with pc := PC.broadcast } = 0 := by simp [atInc]
    rw [e1] at h1 ⊢
    rw [e2]
    have e3 : (s.counter + 1).toNat = s.counter.toNat + 1 := by omega
    rw [hI, e3]
    congr 1
    omega
  | broadcast t0 w0 h0 hpc =>
    have h1 := le_sum_map atInc _ _ _ h0
    simp only [sum_map_set_eq atInc _ _ _ _ (lookup_wake h0), sum_map_wake atInc atInc_wake]
    have e1 : atInc w0 = 0 := by simp [atInc, hpc]
    have e2 : atInc { w0 with pc := PC.unlock } = 0 := by simp [atInc]
    simp only [atInc_wake, e1, e2]
    simpa using hI
  | _ t0 w0 h0 hpc =>
    have h1 := le_sum_map atInc _ _ _ h0
    have h2 := hS t0 w0 h0
    simp only [sum_map_set_eq atInc _ _ w0 _ h0]
    simp_all [atInc]

theorem progressInv_step {n rounds : Nat} {s s' : State} {l : Label}
    (hS : StartInv s) (hId : IdInv s) (hT : TurnInv n s) (hC : 0 ≤ s.counter)
    (hI : ProgressInv n s) (hs : Step n rounds s l s') : ProgressInv n s' := by
  intro t w hw
  cases hs with
  | exit hc he => exact hI t w hw
  | inc t0 w0 h0 hpc =>
    simp only [lookup_set_iff] at hw
    have e3 : (s.counter + 1).toNat = s.counter.toNat + 1 := by omega
    have hturn := hT t0 w0 h0 (Or.inr hpc)
    rw [tmod_cast _ _ hC, hId t0 w0 h0] at hturn
    have hturn' : s.counter.toNat % n = t0 := by exact_mod_cast hturn
    have h1 := hI t0 w0 h0
    simp only [e3, turns]
    rcases hw with ⟨rfl, -, rfl⟩ | ⟨hne, hw⟩
    · simp_all [completed]
    · have h2 := hI t w hw
      have : ¬ s.counter.toNat % n = t := fun h => hne (h.symm.trans hturn')
      simp_all
  | _ t0 w0 h0 =>
    simp only [lookup_set_iff, List.getElem?_map, Option.map_eq_some'] at hw
    have h1 := hI t0 w0 h0
    have h2 := hS t0 w0 h0
    rcases hw with ⟨rfl, -, rfl⟩ | ⟨hne, hw⟩
    · simp_all [completed]
    · first
      | (obtain ⟨u, hu, rfl⟩ := hw
         have h2 := hI t u hu
         simp_all)
      | (have h2 := hI t w hw
         simp_all)

theorem waitInv_step {n rounds : Nat} {s s' : State} {l : Label}
    (hS : StartInv s) (hI : WaitInv n s) (hs : Step n rounds s l s') : WaitInv n s' := by
  intro t w hw hpc hturn
  cases hs with
  | exit hc he => exact hI t w hw hpc hturn
  | inc t0 w0 h0 hpc0 =>
    have h1 := le_sum_map atBroadcast _ _ _ h0
    simp only [sum_map_set_eq atBroadcast _ _ w0 _ h0]
    simp [atBroadcast]
  | broadcast t0 w0 h0 hpc0 =>
    simp only [lookup_set_iff, List.getElem?_map, Option.map_eq_some'] at hw
    rcases hw with ⟨rfl, -, rfl⟩ | ⟨hne, u, hu, rfl⟩
    · simp at hpc
    · simp at hpc
  | _ t0 w0 h0 =>
    simp only [lookup_set_iff] at hw
    have h1 := le_sum_map atBroadcast _ _ _ h0
    have h2 := hS t0 w0 h0
    simp only [sum_map_set_eq atBroadcast _ _ w0 _ h0]
    rcases hw with ⟨rfl, -, rfl⟩ | ⟨hne, hw⟩
    · simp_all
    · have h3 := hI t w hw hpc
      simp_all [atBroadcast]

theorem init_lookup (ids : List Int) (t : Nat) (w : Worker)
    (h : (init ids).workers[t]? = some w) :
    ∃ x, ids[t]? = some x ∧ w = { id := x, i := 0, pc := PC.notStarted } := by
  simp only [init, List.getElem?_map, Option.map_eq_some'] at h
  obtain ⟨x, hx, rfl⟩ := h
  exact ⟨x, hx, rfl⟩

theorem mainIds_lookup (n t : Nat) (x : Int) (h : (mainIds n)[t]? = some x) :
    x = (t : Int) ∧ t < n := by
  simp only [mainIds, List.getElem?_map, Option.map_eq_some'] at h
  obtain ⟨k, hk, rfl⟩ := h
  obtain ⟨rfl, hlt⟩ := lookup_range n t k hk
  exact ⟨rfl, hlt⟩

theorem baseInv_init (ids : List Int) : BaseInv (init ids) := by
  refine ⟨?_, ?_, ?_, ?_⟩
  · intro t w hw
    obtain ⟨x, -, rfl⟩ := init_lookup ids t w hw
    simp [Composite.init]
  · intro t w hw hh
    obtain ⟨x, -, rfl⟩ := init_lookup ids t w hw
    simp at hh
  · intro t hm
    simp [Composite.init] at hm
  · simp [Composite.init]

theorem baseInv_step {n rounds : Nat} {s s' : State} {l : Label}
    (hI : BaseInv s) (hs : Step n rounds s l s') : BaseInv s' :=
  ⟨startInv_step hI.start hs, holderInv_step hI.holder hs, ownerInv_step hI.start hI.owner hs,
    counter_step hI.counter hs⟩

theorem baseInv_exec {n rounds : Nat} (sched : List Label) {s s' : State}
    (hI : BaseInv s) (hs : exec n rounds s sched = some s') : BaseInv s' := by
  induction sched generalizing s with
  | nil =>
    simp only [Composite.exec, Option.some.injEq] at hs
    subst hs
    exact hI
  | cons l ls ih =>
    simp only [Composite.exec] at hs
    split at hs
    · rename_i s1 h1
      exact ih (baseInv_step hI (step_sound h1)) hs
    · simp at hs

theorem inv_init (n rounds : Nat) : Inv n rounds (init (mainIds n)) := by
  refine ⟨baseInv_init _, ?_, ?_, ?_, ?_, ?_, ?_, ?_⟩
  · intro t w hw
    obtain ⟨x, hx, rfl⟩ := init_lookup _ t w hw
    exact (mainIds_lookup n t x hx).1
  · simp [Composite.init, mainIds]
  · intro t w hw
    obtain ⟨x, -, rfl⟩ := init_lookup _ t w hw
    simp
  · intro t w hw hpc
    obtain ⟨x, -, rfl⟩ := init_lookup _ t w hw
    simp at hpc
  · have hz : ((Composite.init (mainIds n)).workers.map atInc).sum = 0 := by
      apply sum_map_eq_zero
      intro t w hw
      obtain ⟨x, -, rfl⟩ := init_lookup _ t w hw
      simp [atInc]
    unfold OutInv
    rw [hz]
    simp [Composite.init, entries]
  · intro t w hw
    obtain ⟨x, -, rfl⟩ := init_lookup _ t w hw
    simp [completed, Composite.init, turns]
  · intro t w hw hpc
    obtain ⟨x, -, rfl⟩ := init_lookup _ t w hw
    simp at hpc

theorem inv_step {n rounds : Nat} {s s' : State} {l : Label}
    (hI : Inv n rounds s) (hs : Step n rounds s l s') : Inv n rounds s' :=
  ⟨baseInv_step hI.base hs, idInv_step hI.ids hs, (length_step hs).trans hI.len,
    localInv_step hI.loc hs, turnInv_step hI.base.holder hI.turn hs,
    outInv_step hI.base.start hI.base.holder hI.turn hI.base.counter hI.out hs,
    progressInv_step hI.base.start hI.ids hI.turn hI.base.counter hI.progress hs,
    waitInv_step hI.base.start hI.wait hs⟩

theorem inv_exec {n rounds : Nat} (sched : List Label) {s s' : State}
    (hI : Inv n rounds s) (hs : exec n rounds s sched = some s') : Inv n rounds s' := by
  induction sched generalizing s with
  | nil =>
    simp only [Composite.exec, Option.some.injEq] at hs
    subst hs
    exact hI
  | cons l ls ih =>
    simp only [Composite.exec] at hs
    split at hs
    · rename_i s1 h1
      exact ih (inv_step hI (step_sound h1)) hs
    · simp at hs

theorem entries_length (n len : Nat) : (entries n len).length = len := by
  simp [entries]

/-- C1. In every run of the `n` workers started by `main` (any interleaving, spurious
wakeups included) the lines printed so far are `(0,0),(1,1),...`: line `k` shows
`counter = k` and `id = k mod n`. -/
theorem round_robin_order (n rounds : Nat) (sched : List Label) (s : State)
    (hrun : exec n rounds (init (mainIds n)) sched = some s) :
    s.out = entries n s.out.length ∧
      ∀ (k : Nat) (p : Int × Int), s.out[k]? = some p →
        p = (((k % n : Nat) : Int), (k : Int)) := by
  have hI := inv_exec sched (inv_init n rounds) hrun
  have ho := hI.out
  unfold OutInv at ho
  have hl : s.out.length = s.counter.toNat + (s.workers.map atInc).sum := by
    rw [ho, entries_length]
  refine ⟨by rw [hl]; exact ho, ?_⟩
  intro k p hk
  rw [ho] at hk
  simp only [entries, List.getElem?_map, Option.map_eq_some'] at hk
  obtain ⟨j, hj, rfl⟩ := hk
  obtain ⟨rfl, -⟩ := lookup_range _ k j hj
  rfl

theorem succ_div_mod (n c : Nat) (hn : 0 < n) :
    (c % n + 1 < n ∧ (c + 1) / n = c / n ∧ (c + 1) % n = c % n + 1) ∨
    (c % n + 1 = n ∧ (c + 1) / n = c / n + 1 ∧ (c + 1) % n = 0) := by
  have hlt := Nat.mod_lt c hn
  have hdm := Nat.div_add_mod c n
  by_cases h : c % n + 1 < n
  · left
    refine ⟨h, ?_⟩
    apply (Nat.div_mod_unique hn).2
    refine ⟨?_, h⟩
    omega
  · right
    have h' : c % n + 1 = n := by omega
    refine ⟨h', ?_⟩
    apply (Nat.div_mod_unique hn).2
    refine ⟨?_, hn⟩
    rw [Nat.mul_succ]
    omega

theorem turns_closed (n t c : Nat) (ht : t < n) :
    turns n t c = c / n + if t < c % n then 1 else 0 := by
  induction c with
  | zero => simp [turns]
  | succ c ih =>
    have hn : 0 < n := by omega
    simp only [turns, ih]
    rcases succ_div_mod n c hn with ⟨h1, h2, h3⟩ | ⟨h1, h2, h3⟩
    · rw [h2, h3]
      by_cases ha : t < c % n
      · have hb : ¬ c % n = t := by omega
        have hc : t < c % n + 1 := by omega
        simp [ha, hb, hc]
      · by_cases hb : c % n = t
        · have hc : t < c % n + 1 := by omega
          simp [ha, hb, hc]
        · have hc : ¬ t < c % n + 1 := by omega
          simp [ha, hb, hc]
    · rw [h2, h3]
      by_cases ha : t < c % n
      · have hb : ¬ c % n = t := by omega
        simp [ha, hb]
      · have hb : c % n = t := by omega
        simp [hb]

theorem inCS_holds (pc : PC) (h : inCS pc = true) : holds pc = true := by
  cases pc <;> simp_all

/-- C2. In every reachable state of the `n`-worker system at most one worker is inside
the critical section: the guard counter never exceeds 1. -/
theorem mutual_exclusion (n rounds : Nat) (sched : List Label) (s : State)
    (hrun : exec n rounds (init (mainIds n)) sched = some s) : guard s ≤ 1 := by
  have hI := baseInv_exec sched (baseInv_init (mainIds n)) hrun
  unfold guard
  apply countP_le_one
  intro t1 t2 w1 w2 h1 h2 p1 p2
  have e1 := hI.holder t1 w1 h1 (inCS_holds _ (by simpa using p1))
  have e2 := hI.holder t2 w2 h2 (inCS_holds _ (by simpa using p2))
  rw [e1] at e2
  exact Option.some.inj e2

theorem allDone_lookup {s : State} (h : allDone s = true) (t : Nat) (w : Worker)
    (hw : s.workers[t]? = some w) : w.pc = PC.done := by
  unfold allDone at h
  rw [List.all_eq_true] at h
  have := h w (List.getElem?_mem hw)
  simpa using this

theorem final_counter {n rounds : Nat} {s : State} (hn : 1 ≤ n) (hI : Inv n rounds s)
    (hd : allDone s = true) : s.counter.toNat = n * rounds := by
  have hlook : ∀ t, t < n → turns n t s.counter.toNat = rounds := by
    intro t ht
    have hlt : t < s.workers.length := by rw [hI.len]; exact ht
    have hw : s.workers[t]? = some s.workers[t] := List.getElem?_eq_getElem hlt
    have hpc := allDone_lookup hd t _ hw
    have h1 := hI.progress t _ hw
    have h2 := (hI.loc t _ hw).2.2 hpc
    rw [← h1]
    simp [completed, hpc, h2]
  have h0 := hlook 0 (by omega)
  have hl := hlook (n - 1) (by omega)
  rw [turns_closed _ _ _ (by omega)] at h0 hl
  have hlt := Nat.mod_lt s.counter.toNat (show 0 < n by omega)
  have hdm := Nat.div_add_mod s.counter.toNat n
  have hl' : s.counter.toNat / n = rounds := by
    have : ¬ (n - 1 < s.counter.toNat % n) := by omega
    simpa [this] using hl
  have h0' : s.counter.toNat % n = 0 := by
    by_contra hne
    have : 0 < s.counter.toNat % n := Nat.pos_of_ne_zero hne
    simp [this, hl'] at h0
  rw [hl', h0'] at hdm
  omega

theorem complete_run {n rounds : Nat} (sched : List Label) {s : State}
    (hn : 1 ≤ n) (hrun : exec n rounds (init (mainIds n)) sched = some s)
    (hd : allDone s = true) :
    s.out = entries n (n * rounds) ∧ s.counter = ((n * rounds : Nat) : Int) := by
  have hI := inv_exec sched (inv_init n rounds) hrun
  have hc := final_counter hn hI hd
  have hz : (s.workers.map atInc).sum = 0 := by
    apply sum_map_eq_zero
    intro t w hw
    simp [atInc, allDone_lookup hd t w hw]
  have ho := hI.out
  unfold OutInv at ho
  rw [hz, hc] at ho
  refine ⟨ho, ?_⟩
  rw [← hc]
  exact (Int.toNat_of_nonneg hI.base.counter).symm

/-- The value of `counter` never exceeds `n * rounds`. For `n * rounds < 2^31` the C `int`
therefore never overflows, and the unbounded integer of the model agrees with it. -/
theorem counter_le {n rounds : Nat} {s : State} (hn : 1 ≤ n) (hI : Inv n rounds s) :
    0 ≤ s.counter ∧ s.counter ≤ ((n * rounds : Nat) : Int) := by
  refine ⟨hI.base.counter, ?_⟩
  have hnpos : 0 < n := by omega
  have key : s.counter.toNat ≤ n * rounds := by
    by_contra hgt
    obtain ⟨c, hc⟩ : ∃ c, s.counter.toNat = c + 1 := ⟨s.counter.toNat - 1, by omega⟩
    have hcge : n * rounds ≤ c := by omega
    have hdiv : rounds ≤ c / n := (Nat.le_div_iff_mul_le hnpos).2 (by rw [Nat.mul_comm]; exact hcge)
    have htlt : c % n < s.workers.length := by
      rw [hI.len]
      exact Nat.mod_lt _ hnpos
    have hw : s.workers[c % n]? = some s.workers[c % n] := List.getElem?_eq_getElem htlt
    generalize s.workers[c % n] = w at hw
    have hp := hI.progress _ w hw
    have hl := hI.loc _ w hw
    rw [hc] at hp
    simp only [turns, if_true] at hp
    rw [turns_closed _ _ _ (Nat.mod_lt _ hnpos)] at hp
    simp only [lt_irrefl, if_false, Nat.add_zero] at hp
    have hcomp : completed w ≤ rounds := by
      unfold completed
      by_cases ha : afterInc w.pc = true
      · have : inLoop w.pc = true := by
          cases hpc : w.pc <;> simp_all
        have := hl.2.1 this
        simp only [ha, if_true]
        omega
      · have hz : (if afterInc w.pc = true then 1 else 0) = 0 := by simp [ha]
        rw [hz]
        omega
    omega
  have := Int.toNat_of_nonneg hI.base.counter
  omega

theorem potential_wake (T rounds : Nat) (w : Worker) :
    potential T rounds (wake w) ≤ potential T rounds w + 2 := by
  unfold wake
  split
  · rename_i h
    simp only [potential, h]
    omega
  · omega

theorem weight_enter (T rounds i : Nat) (h : i < rounds) :
    weight T * (rounds - i) = weight T * (rounds - (i + 1)) + (8 + 2 * T) := by
  have e : rounds - i = (rounds - (i + 1)) + 1 := by omega
  rw [e, Nat.mul_succ]
  simp [weight]

theorem measure_step {n rounds : Nat} {s s' : State} {l : Label}
    (hS : StartInv s) (hs : Step n rounds s l s') :
    measure rounds s' + 1 ≤ measure rounds s + (if l.isSpurious = true then 3 else 0) := by
  unfold measure
  cases hs with
  | exit hc he =>
    simp only [he, Label.isSpurious, Bool.false_eq_true, if_false, if_true]
    omega
  | create t0 w0 h0 ht =>
    have hlen : t0 < s.workers.length := (List.getElem?_eq_some_iff.1 h0).1
    have h1 := le_sum_map (potential s.workers.length rounds) _ _ _ h0
    simp only [List.length_set, sum_map_set_eq (potential s.workers.length rounds) _ _ w0 _ h0]
    have e : potential s.workers.length rounds { w0 with pc := PC.loopHead } =
        potential s.workers.length rounds w0 := by
      have hpc : w0.pc = PC.notStarted := (hS t0 w0 h0).2 (by omega)
      simp only [potential, hpc]
    rw [e]
    simp only [Label.isSpurious, Bool.false_eq_true, if_false]
    omega
  | broadcast t0 w0 h0 hpc =>
    have h1 := le_sum_map (potential s.workers.length rounds) _ _ _ (lookup_wake h0)
    have h2 := sum_map_le_add (potential s.workers.length rounds)
      (fun w => potential s.workers.length rounds (wake w)) 2 s.workers
      (potential_wake s.workers.length rounds)
    have h3 : ((s.workers.map wake).map (potential s.workers.length rounds)).sum =
        (s.workers.map (fun w => potential s.workers.length rounds (wake w))).sum := by
      simp [List.map_map, Function.comp_def]
    have e : wake w0 = w0 := by simp [wake, hpc]
    simp only [List.length_set, List.length_map,
      sum_map_set_eq (potential s.workers.length rounds) _ _ _ _ (lookup_wake h0)]
    rw [e] at h1 ⊢
    rw [h3] at h1 ⊢
    have e1 : potential s.workers.length rounds w0 =
        weight s.workers.length * (rounds - (w0.i + 1)) + (4 + 2 * s.workers.length) := by
      simp only [potential, hpc]
    have e2 : potential s.workers.length rounds { w0 with pc := PC.unlock } =
        weight s.workers.length * (rounds - (w0.i + 1)) + 3 := by
      simp only [potential]
    rw [e1] at h1 ⊢
    rw [e2]
    simp only [Label.isSpurious, Bool.false_eq_true, if_false]
    omega
  | enter t0 w0 h0 hpc hi =>
    have h1 := le_sum_map (potential s.workers.length rounds) _ _ _ h0
    simp only [List.length_set, sum_map_set_eq (potential s.workers.length rounds) _ _ w0 _ h0]
    have e := weight_enter s.workers.length rounds w0.i hi
    simp only [potential, hpc, Label.isSpurious, Bool.false_eq_true, if_false] at h1 ⊢
    omega
  | _ t0 w0 h0 hpc =>
    have h1 := le_sum_map (potential s.workers.length rounds) _ _ _ h0
    simp only [List.length_set, sum_map_set_eq (potential s.workers.length rounds) _ _ w0 _ h0]
    simp only [potential, hpc, Label.isSpurious, if_true, Bool.false_eq_true, if_false]
      at h1 ⊢
    omega

theorem run_enabled (n rounds : Nat) (s : State) (t : Nat) (w : Worker)
    (he : s.exited = false) (hw : s.workers[t]? = some w) (hc : canRun s w = true) :
    ∃ s', step n rounds s (Label.run t) = some s' := by
  simp only [step, he, Bool.false_eq_true, if_false, hw, workerStep]
  unfold canRun at hc
  cases hpc : w.pc <;> simp only [hpc] at hc ⊢ <;> try (simp at hc)
  all_goals first
    | exact ⟨_, rfl⟩
    | (split <;> exact ⟨_, rfl⟩)

theorem measure_init (n rounds : Nat) :
    measure rounds (init (mainIds n)) = stepBound n rounds := by
  have hlen : (init (mainIds n)).workers.length = n := by simp [init, mainIds]
  have hsum : ∀ (T : Nat) (ids : List Int),
      ((init ids).workers.map (potential T rounds)).sum =
        ids.length * (weight T * rounds + 1) := by
    intro T ids
    induction ids with
    | nil => simp [init]
    | cons x xs ih =>
      simp only [init, List.map_cons, List.sum_cons, List.length_cons] at ih ⊢
      rw [ih, Nat.succ_mul]
      simp only [potential, Nat.sub_zero]
      omega
  unfold measure
  rw [hlen, hsum]
  simp only [init, mainIds, List.length_map, List.length_range, stepBound,
    Bool.false_eq_true, if_false]
  rw [Nat.mul_add, Nat.mul_add]
  omega

theorem measure_exec {n rounds : Nat} (sched : List Label) {s s' : State}
    (hI : BaseInv s) (hs : exec n rounds s sched = some s') :
    measure rounds s' + sched.length ≤ measure rounds s + 3 * spuriousCount sched := by
  induction sched generalizing s with
  | nil =>
    simp only [exec, Option.some.injEq] at hs
    subst hs
    simp
  | cons l ls ih =>
    simp only [exec] at hs
    split at hs
    · rename_i s1 h1
      have hstep := step_sound h1
      have h2 := ih (baseInv_step hI hstep) hs
      have h3 := measure_step hI.start hstep
      simp only [spuriousCount, List.length_cons, List.countP_cons] at h2 ⊢
      cases hl : l.isSpurious <;> simp [hl] at h3 ⊢ <;> omega
    · simp at hs

theorem holds_canRun (s : State) (w : Worker) (h : holds w.pc = true) : canRun s w = true := by
  unfold canRun
  cases hpc : w.pc <;> simp_all

/-- Deadlock freedom: as long as `main` has not returned, a state of the `n`-worker system
in which some worker has not returned has an enabled statement of a worker or of the
creation loop. -/
theorem progress {n rounds : Nat} {s : State} (hn : 1 ≤ n) (hI : Inv n rounds s)
    (he : s.exited = false) (hd : allDone s = false) :
    ∃ l s', l.isProgram = true ∧ step n rounds s l = some s' := by
  by_cases hc : s.created < s.workers.length
  · have hstep : ∃ s', step n rounds s Label.create = some s' := by
      simp only [step, he, Bool.false_eq_true, if_false, List.getElem?_eq_getElem hc]
      exact ⟨_, rfl⟩
    obtain ⟨s', hs'⟩ := hstep
    exact ⟨Label.create, s', rfl, hs'⟩
  by_cases hex : ∃ (t : Nat) (w : Worker), s.workers[t]? = some w ∧ canRun s w = true
  · obtain ⟨t, w, hw, hr⟩ := hex
    obtain ⟨s', hs'⟩ := run_enabled n rounds s t w he hw hr
    exact ⟨Label.run t, s', rfl, hs'⟩
  exfalso
  have hno : ∀ (t : Nat) (w : Worker), s.workers[t]? = some w → canRun s w = false := by
    intro t w hw
    cases h : canRun s w
    · rfl
    · exact absurd ⟨t, w, hw, h⟩ hex
  have hm : s.mutex = none := by
    cases hmu : s.mutex with
    | none => rfl
    | some t =>
      obtain ⟨w, hw, hh⟩ := hI.base.owner t hmu
      have := hno t w hw
      rw [holds_canRun s w hh] at this
      cases this
  have hpcs : ∀ (t : Nat) (w : Worker), s.workers[t]? = some w → w.pc = PC.waiting ∨ w.pc = PC.done := by
    intro t w hw
    have h1 := hno t w hw
    have h2 := hI.base.start t w hw
    have hlt : t < s.workers.length := (List.getElem?_eq_some_iff.1 hw).1
    unfold canRun at h1
    cases hpc : w.pc <;> simp_all
    omega
  have hz : (s.workers.map atBroadcast).sum = 0 := by
    apply sum_map_eq_zero
    intro t w hw
    rcases hpcs t w hw with h | h <;> simp [atBroadcast, h]
  -- some worker is blocked
  obtain ⟨t1, w1, hw1, hpc1⟩ : ∃ (t : Nat) (w : Worker), s.workers[t]? = some w ∧
      w.pc = PC.waiting := by
    by_contra hnone
    have : allDone s = true := by
      unfold allDone
      rw [List.all_eq_true]
      intro w hmem
      obtain ⟨t, ht⟩ := List.mem_iff_getElem?.1 hmem
      rcases hpcs t w ht with h | h
      · exact absurd ⟨t, w, ht, h⟩ hnone
      · simp [h]
    rw [this] at hd
    cases hd
  have hnpos : 0 < n := by omega
  have hrlt : s.counter.toNat % n < s.workers.length := by
    rw [hI.len]
    exact Nat.mod_lt _ hnpos
  have hwr : s.workers[s.counter.toNat % n]? = some s.workers[s.counter.toNat % n] :=
    List.getElem?_eq_getElem hrlt
  generalize s.workers[s.counter.toNat % n] = wr at hwr
  rcases hpcs _ wr hwr with hr | hr
  · have hturn : Int.tmod s.counter (n : Int) = wr.id := by
      rw [tmod_cast _ _ hI.base.counter, hI.ids _ wr hwr]
    have := hI.wait _ wr hwr hr hturn
    omega
  · have e1 := hI.progress _ wr hwr
    have e2 := (hI.loc _ wr hwr).2.2 hr
    rw [turns_closed _ _ _ (Nat.mod_lt _ hnpos)] at e1
    simp only [completed, hr, afterInc_eval, e2, lt_irrefl, if_false, Nat.add_zero,
      Bool.false_eq_true] at e1
    have ht1 : t1 < n := by
      rw [← hI.len]
      exact (List.getElem?_eq_some_iff.1 hw1).1
    have e3 := hI.progress _ w1 hw1
    have e4 := (hI.loc _ w1 hw1).2.1 (by simp [hpc1])
    rw [turns_closed _ _ _ ht1] at e3
    simp only [completed, hpc1, afterInc_eval, if_false, Nat.add_zero,
      Bool.false_eq_true] at e3
    omega

theorem program_not_spurious (l : Label) (h : l.isProgram = true) :
    l.isSpurious = false := by
  cases l <;> simp_all [Label.isProgram, Label.isSpurious]

theorem program_keeps_running {n rounds : Nat} {s s' : State} {l : Label}
    (hs : Step n rounds s l s') (hl : l.isProgram = true) : s'.exited = s.exited := by
  cases hs <;> first | rfl | simp [Label.isProgram] at hl

/-- From every state of the `n`-worker system satisfying the invariants in which `main`
has not returned, statements of the workers and of the creation loop alone lead to the
state in which all workers have returned. -/
theorem completion {n rounds : Nat} (hn : 1 ≤ n) (m : Nat) :
    ∀ s : State, Inv n rounds s → s.exited = false → measure rounds s ≤ m →
      ∃ (rest : List Label) (final : State), rest.all Label.isProgram = true ∧
        exec n rounds s rest = some final ∧ allDone final = true := by
  induction m with
  | zero =>
    intro s hI hex hm
    cases hd : allDone s
    · obtain ⟨l, s1, hl, h1⟩ := progress hn hI hex hd
      have := measure_step hI.base.start (step_sound h1)
      simp only [program_not_spurious l hl, Bool.false_eq_true, if_false] at this
      omega
    · exact ⟨[], s, rfl, rfl, hd⟩
  | succ m ih =>
    intro s hI hex hm
    cases hd : allDone s
    · obtain ⟨l, s1, hl, h1⟩ := progress hn hI hex hd
      have hms := measure_step hI.base.start (step_sound h1)
      simp only [program_not_spurious l hl, Bool.false_eq_true, if_false] at hms
      have hex1 : s1.exited = false := (program_keeps_running (step_sound h1) hl).trans hex
      obtain ⟨rest, final, hr, he, hf⟩ :=
        ih s1 (inv_step hI (step_sound h1)) hex1 (by omega)
      refine ⟨l :: rest, final, ?_, ?_, hf⟩
      · simp only [List.all_cons, hl, hr, Bool.and_self]
      · simp only [exec, h1]
        exact he
    · exact ⟨[], s, rfl, rfl, hd⟩

@[simp] theorem beforeTurn_eval :
    beforeTurn PC.notStarted = true ∧ beforeTurn PC.loopHead = true ∧
    beforeTurn PC.lock = true ∧ beforeTurn PC.check = true ∧ beforeTurn PC.waiting = true ∧
    beforeTurn PC.woken = true ∧ beforeTurn PC.print = false ∧ beforeTurn PC.inc = false ∧
    beforeTurn PC.broadcast = false ∧ beforeTurn PC.unlock = false ∧
    beforeTurn PC.sleep = false ∧ beforeTurn PC.done = false := by
  decide

@[simp] theorem beforeTurn_wake (w : Worker) : beforeTurn (wake w).pc = beforeTurn w.pc := by
  unfold wake; split <;> simp_all

theorem exists_of_sum_pos {α : Type} (f : α → Nat) (l : List α) (h : 0 < (l.map f).sum) :
    ∃ (t : Nat) (w : α), l[t]? = some w ∧ 0 < f w := by
  by_contra hne
  have hz : (l.map f).sum = 0 := by
    apply sum_map_eq_zero
    intro t w hw
    by_contra hf
    exact hne ⟨t, w, hw, Nat.pos_of_ne_zero hf⟩
  omega

/-- C1 at a concrete run: after `overlapSchedule` the only printed line is `(0, 0)`. -/
theorem round_robin_order_witness :
    exec 3 5 (init (mainIds 3)) overlapSchedule = some overlapState ∧
      overlapState.out = entries 3 overlapState.out.length :=
  ⟨rfl, (round_robin_order 3 5 overlapSchedule overlapState rfl).1⟩

/-- C2 at a concrete run: after `overlapSchedule` worker 1 alone is in the critical
section. -/
theorem mutual_exclusion_witness :
    exec 3 5 (init (mainIds 3)) overlapSchedule = some overlapState ∧ guard overlapState ≤ 1 :=
  ⟨rfl, mutual_exclusion 3 5 overlapSchedule overlapState rfl⟩

theorem exec_append (n rounds : Nat) (s : State) (a b : List Label) :
    exec n rounds s (a ++ b) = (exec n rounds s a).bind (fun s' => exec n rounds s' b) := by
  induction a generalizing s with
  | nil => rfl
  | cons l ls ih =>
    simp only [List.cons_append, exec]
    cases step n rounds s l with
    | none => rfl
    | some s1 => exact ih s1

theorem spinCycles_exec (k : Nat) : exec 2 1 spinState (spinCycles k) = some spinState := by
  induction k with
  | zero => rfl
  | succ k ih =>
    have h3 : exec 2 1 spinState (Label.spurious 1 :: Label.run 1 :: Label.run 1 :: spinCycles k)
        = exec 2 1 spinState (spinCycles k) := rfl
    simp only [spinCycles]
    rw [h3, ih]

theorem spinCycles_length (k : Nat) : (spinCycles k).length = 3 * k := by
  induction k with
  | zero => rfl
  | succ k ih =>
    simp only [spinCycles, List.length_cons, ih]
    omega

/-- C3, the claim fails, in two ways. With the constants of the source, `main` can
return right after its creation loop: the process has ended, no step is enabled, and no
worker has returned. And with two workers of one iteration each, for every bound `B`
there is a run of more than `B` steps, made of wakeups without a broadcast, after which
no worker has returned. -/
theorem liveness_counterexample :
    (exec 3 5 (init (mainIds 3)) earlyExitSchedule = some earlyExitState ∧
      allDone earlyExitState = false ∧ ∀ l : Label, step 3 5 earlyExitState l = none) ∧
    (∀ B : Nat, exec 2 1 (init (mainIds 2)) (spinSchedule B) = some spinState ∧
      B < (spinSchedule B).length ∧ allDone spinState = false) := by
  refine ⟨⟨rfl, rfl, fun l => rfl⟩, fun B => ⟨?_, ?_, rfl⟩⟩
  · unfold spinSchedule
    rw [exec_append]
    have h5 : exec 2 1 (init (mainIds 2))
        [Label.create, Label.create, Label.run 1, Label.run 1, Label.run 1] = some spinState :=
      rfl
    rw [h5]
    exact spinCycles_exec B
  · simp only [spinSchedule, List.length_append, spinCycles_length, List.length_cons,
      List.length_nil]
    omega

/-- C3 as amended. For `n ≥ 1` workers of `rounds` iterations each and every run:
its length is at most `stepBound n rounds` plus three steps for each spurious wakeup in
it; as long as `main` has not returned, a state in which some worker has not returned
has an enabled statement of a worker or of the creation loop, and such statements alone
lead from it to the state in which all workers have returned; and a worker blocked on the
condition variable whose turn has come is about to be woken by a worker standing at the
broadcast. -/
theorem liveness (n rounds : Nat) (sched : List Label) (s : State) (hn : 1 ≤ n)
    (hrun : exec n rounds (init (mainIds n)) sched = some s) :
    sched.length ≤ stepBound n rounds + 3 * spuriousCount sched ∧
    (s.exited = false → allDone s = false →
      ∃ (l : Label) (s' : State), l.isProgram = true ∧ step n rounds s l = some s') ∧
    (∀ (t : Nat) (w : Worker), s.workers[t]? = some w → w.pc = PC.waiting →
      Int.tmod s.counter (n : Int) = w.id →
      ∃ (v : Nat) (u : Worker), s.workers[v]? = some u ∧ u.pc = PC.broadcast) ∧
    (s.exited = false →
      ∃ (rest : List Label) (final : State), rest.all Label.isProgram = true ∧
        exec n rounds s rest = some final ∧ allDone final = true) := by
  have hI := inv_exec sched (inv_init n rounds) hrun
  refine ⟨?_, fun he hd => progress hn hI he hd, ?_,
    fun he => completion hn _ s hI he (le_refl _)⟩
  · have := measure_exec sched (baseInv_init (mainIds n)) hrun
    rw [measure_init] at this
    omega
  · intro t w hw hpc hturn
    obtain ⟨v, u, hu, hpos⟩ := exists_of_sum_pos _ _ (hI.wait t w hw hpc hturn)
    refine ⟨v, u, hu, ?_⟩
    unfold atBroadcast at hpos
    by_contra hne
    simp [hne] at hpos

/-- C3 as amended, at a concrete run: `overlapSchedule` has 12 steps, within the bound
for three workers of five iterations, and in the state it reaches, where `main` has not
returned, a statement is enabled. -/
theorem liveness_witness :
    exec 3 5 (init (mainIds 3)) overlapSchedule = some overlapState ∧
      overlapSchedule.length ≤ stepBound 3 5 + 3 * spuriousCount overlapSchedule ∧
      ∃ (l : Label) (s' : State), l.isProgram = true ∧ step 3 5 overlapState l = some s' :=
  ⟨rfl, (liveness 3 5 overlapSchedule overlapState (by decide) rfl).1,
    (liveness 3 5 overlapSchedule overlapState (by decide) rfl).2.1 rfl rfl⟩

/-- C4. For `n ≥ 1` workers of `rounds` iterations each: a run in which all workers
return exists, and every run that reaches the state in which all workers have returned
has printed exactly the lines `(k mod n, k)` for `k < n * rounds` and ends with
`counter = n * rounds`. -/
theorem complete_run_result (n rounds : Nat) (hn : 1 ≤ n) :
    (∃ (sched : List Label) (s : State),
      exec n rounds (init (mainIds n)) sched = some s ∧ allDone s = true) ∧
    ∀ (sched : List Label) (s : State),
      exec n rounds (init (mainIds n)) sched = some s → allDone s = true →
        s.out = entries n (n * rounds) ∧ s.counter = ((n * rounds : Nat) : Int) := by
  refine ⟨?_, fun sched s hrun hd => complete_run sched hn hrun hd⟩
  obtain ⟨rest, final, -, he, hf⟩ := completion hn _ _ (inv_init n rounds) rfl (le_refl _)
  exact ⟨rest, final, he, hf⟩

/-- C4 at the scenario of the specification: three workers, two iterations each. -/
theorem complete_run_result_witness :
    exec 3 2 (init (mainIds 3)) demoSchedule = some demoFinal ∧
      demoFinal.out = [(0, 0), (1, 1), (2, 2), (0, 3), (1, 4), (2, 5)] ∧
      demoFinal.out = entries 3 (3 * 2) ∧ demoFinal.counter = ((3 * 2 : Nat) : Int) :=
  ⟨rfl, rfl, (complete_run_result 3 2 (by decide)).2 demoSchedule demoFinal rfl rfl⟩

/-- C9, the claim fails: after `overlapSchedule` worker 0 is executing `sleep(1)` while
the mutex is owned by worker 1. -/
theorem sleep_with_mutex_counterexample :
    exec 3 5 (init (mainIds 3)) overlapSchedule = some overlapState ∧
      overlapState.workers[0]? = some { id := 0, i := 0, pc := PC.sleep } ∧
      overlapState.mutex = some 1 :=
  ⟨rfl, rfl, rfl⟩

/-- C9 as amended. `sleep(1)` follows `pthread_mutex_unlock`: in every reachable state a
worker executing `sleep(1)` does not own the mutex. -/
theorem sleep_outside_lock (n rounds : Nat) (sched : List Label) (s : State) (t : Nat)
    (w : Worker) (hrun : exec n rounds (init (mainIds n)) sched = some s)
    (hw : s.workers[t]? = some w) (hpc : w.pc = PC.sleep) : s.mutex ≠ some t := by
  have hI := baseInv_exec sched (baseInv_init (mainIds n)) hrun
  intro hm
  obtain ⟨w', hw', hh⟩ := hI.owner t hm
  rw [hw] at hw'
  cases hw'
  simp [hpc] at hh

/-- C9 as amended, at a concrete run: after `sleepSchedule` worker 0 sleeps and the
mutex is not owned by it. -/
theorem sleep_outside_lock_witness :
    exec 3 5 (init (mainIds 3)) sleepSchedule = some sleepState ∧ sleepState.mutex ≠ some 0 :=
  ⟨rfl, sleep_outside_lock 3 5 sleepSchedule sleepState 0 { id := 0, i := 0, pc := PC.sleep }
    rfl rfl rfl⟩

end Composite

/-! ## The mutex-protected counter -/

namespace MutexDemo

theorem demo_step_sound {K : Nat} {s s' : State} {l : Label}
    (h : step K s l = some s') : Step K s l s' := by
  cases l with
  | create =>
    simp only [step] at h
    split at h
    · rename_i w hw
      simp only [Option.some.injEq] at h
      subst h
      exact Step.create s.created w hw rfl
    · simp at h
  | join =>
    simp only [step] at h
    split at h
    · rename_i hc
      split at h
      · rename_i w hw
        split at h
        · rename_i hpc
          simp only [Option.some.injEq] at h
          subst h
          exact Step.join s.joined w hw rfl hc hpc
        · simp at h
      · simp at h
    · simp at h
  | print =>
    simp only [step] at h
    split at h
    · rename_i hc
      simp only [Option.some.injEq] at h
      subst h
      exact Step.print hc.1 hc.2
    · simp at h
  | run t =>
    simp only [step] at h
    split at h
    · rename_i w hw
      simp only [threadStep] at h
      split at h
      · simp at h
      · rename_i hpc
        split at h
        · rename_i hi
          simp only [Option.some.injEq] at h
          subst h
          exact Step.enter t w hw hpc hi
        · rename_i hi
          simp only [Option.some.injEq] at h
          subst h
          exact Step.leave t w hw hpc hi
      · rename_i hpc
        split at h
        · rename_i hm
          simp only [Option.some.injEq] at h
          subst h
          exact Step.lock t w hw hpc hm
        · simp at h
      · rename_i hpc
        simp only [Option.some.injEq] at h
        subst h
        exact Step.load t w hw hpc
      · rename_i hpc
        simp only [Option.some.injEq] at h
        subst h
        exact Step.store t w hw hpc
      · rename_i hpc
        simp only [Option.some.injEq] at h
        subst h
        exact Step.unlock t w hw hpc
      · simp at h
    · simp at h

@[simp] theorem demo_holds_eval :
    holds PC.notStarted = false ∧ holds PC.loopHead = false ∧ holds PC.lock = false ∧
    holds PC.load = true ∧ holds PC.store = true ∧ holds PC.unlock = true ∧
    holds PC.done = false := by
  decide

theorem start_step {K : Nat} {s s' : State} {l : Label}
    (hI : ∀ (t : Nat) (w : Thread), s.threads[t]? = some w →
      (w.pc = PC.notStarted ↔ s.created ≤ t))
    (hs : Step K s l s') :
    ∀ (t : Nat) (w : Thread), s'.threads[t]? = some w →
      (w.pc = PC.notStarted ↔ s'.created ≤ t) := by
  intro t w hw
  cases hs with
  | join t0 w0 h0 ht hc hpc => exact hI t w hw
  | print hj hp => exact hI t w hw
  | _ t0 w0 h0 =>
    simp only [lookup_set_iff] at hw
    have h1 := hI t0 w0 h0
    rcases hw with ⟨rfl, -, rfl⟩ | ⟨hne, hw⟩
    · simp_all
    · have h2 := hI t w hw
      simp_all
      try omega

theorem holder_step {K : Nat} {s s' : State} {l : Label}
    (hI : ∀ (t : Nat) (w : Thread), s.threads[t]? = some w → holds w.pc = true →
      s.mutex = some t)
    (hs : Step K s l s') :
    ∀ (t : Nat) (w : Thread), s'.threads[t]? = some w → holds w.pc = true →
      s'.mutex = some t := by
  intro t w hw hh
  cases hs with
  | join t0 w0 h0 ht hc hpc => exact hI t w hw hh
  | print hj hp => exact hI t w hw hh
  | _ t0 w0 h0 =>
    simp only [lookup_set_iff] at hw
    have h1 := hI t0 w0 h0
    rcases hw with ⟨rfl, -, rfl⟩ | ⟨hne, hw⟩
    · simp_all
    · have h2 := hI t w hw
      simp_all

theorem owner_step {K : Nat} {s s' : State} {l : Label}
    (hS : ∀ (t : Nat) (w : Thread), s.threads[t]? = some w →
      (w.pc = PC.notStarted ↔ s.created ≤ t))
    (hI : ∀ t : Nat, s.mutex = some t →
      ∃ w : Thread, s.threads[t]? = some w ∧ holds w.pc = true)
    (hs : Step K s l s') :
    ∀ t : Nat, s'.mutex = some t →
      ∃ w : Thread, s'.threads[t]? = some w ∧ holds w.pc = true := by
  intro t hm
  cases hs with
  | join t0 w0 h0 ht hc hpc => exact hI t hm
  | print hj hp => exact hI t hm
  | _ t0 w0 h0 =>
    simp only [lookup_set_iff]
    have hlen : t0 < s.threads.length := (List.getElem?_eq_some_iff.1 h0).1
    have h1 := hI t
    have h2 := hS t0 w0 h0
    by_cases ht : t = t0
    · subst ht
      simp_all
    · simp_all

theorem tmp_step {K : Nat} {s s' : State} {l : Label}
    (hH : ∀ (t : Nat) (w : Thread), s.threads[t]? = some w → holds w.pc = true →
      s.mutex = some t)
    (hI : ∀ (t : Nat) (w : Thread), s.threads[t]? = some w → w.pc = PC.store →
      w.tmp = s.shared_counter)
    (hs : Step K s l s') :
    ∀ (t : Nat) (w : Thread), s'.threads[t]? = some w → w.pc = PC.store →
      w.tmp = s'.shared_counter := by
  intro t w hw hpcw
  cases hs with
  | join t0 w0 h0 ht hc hpc => exact hI t w hw hpcw
  | print hj hp => exact hI t w hw hpcw
  | _ t0 w0 h0 =>
    simp only [lookup_set_iff] at hw
    have h1 := hI t0 w0 h0
    have h3 := hH t0 w0 h0
    rcases hw with ⟨rfl, -, rfl⟩ | ⟨hne, hw⟩
    · simp_all
    · have h2 := hI t w hw
      have h4 := hH t w hw
      simp_all

theorem loc_step {K : Nat} {s s' : State} {l : Label}
    (hI : ∀ (t : Nat) (w : Thread), s.threads[t]? = some w →
      w.i ≤ K ∧ (holds w.pc = true ∨ w.pc = PC.lock → w.i < K) ∧ (w.pc = PC.done → w.i = K))
    (hs : Step K s l s') :
    ∀ (t : Nat) (w : Thread), s'.threads[t]? = some w →
      w.i ≤ K ∧ (holds w.pc = true ∨ w.pc = PC.lock → w.i < K) ∧
        (w.pc = PC.done → w.i = K) := by
  intro t w hw
  cases hs with
  | join t0 w0 h0 ht hc hpc => exact hI t w hw
  | print hj hp => exact hI t w hw
  | _ t0 w0 h0 =>
    simp only [lookup_set_iff] at hw
    have h1 := hI t0 w0 h0
    rcases hw with ⟨rfl, -, rfl⟩ | ⟨hne, hw⟩
    · simp_all
      try omega
    · exact hI t w hw

theorem total_step {K : Nat} {s s' : State} {l : Label}
    (hS : ∀ (t : Nat) (w : Thread), s.threads[t]? = some w →
      (w.pc = PC.notStarted ↔ s.created ≤ t))
    (hT : ∀ (t : Nat) (w : Thread), s.threads[t]? = some w → w.pc = PC.store →
      w.tmp = s.shared_counter)
    (hI : s.shared_counter = (((s.threads.map completed).sum : Nat) : Int))
    (hs : Step K s l s') :
    s'.shared_counter = (((s'.threads.map completed).sum : Nat) : Int) := by
  cases hs with
  | join t0 w0 h0 ht hc hpc => exact hI
  | print hj hp => exact hI
  | _ t0 w0 h0 hpc =>
    have h1 := le_sum_map completed _ _ _ h0
    have h2 := hS t0 w0 h0
    have h3 := hT t0 w0 h0
    simp only [sum_map_set_eq completed _ _ w0 _ h0]
    simp_all [completed]
    try omega

theorem main_step {K : Nat} {s s' : State} {l : Label}
    (hS : ∀ (t : Nat) (w : Thread), s.threads[t]? = some w →
      (w.pc = PC.notStarted ↔ s.created ≤ t))
    (hI : s.created ≤ s.threads.length ∧ s.joined ≤ s.threads.length ∧
      (∀ (t : Nat) (w : Thread), s.threads[t]? = some w → t < s.joined → w.pc = PC.done))
    (hs : Step K s l s') :
    s'.created ≤ s'.threads.length ∧ s'.joined ≤ s'.threads.length ∧
      (∀ (t : Nat) (w : Thread), s'.threads[t]? = some w → t < s'.joined →
        w.pc = PC.done) := by
  obtain ⟨hc, hj, hd⟩ := hI
  cases hs with
  | join t0 w0 h0 ht hcr hpc =>
    have hlen : t0 < s.threads.length := (List.getElem?_eq_some_iff.1 h0).1
    refine ⟨hc, by simp only; omega, ?_⟩
    intro t w hw hlt
    simp only at hw hlt
    by_cases e : t < s.joined
    · exact hd t w hw e
    · have e' : t = t0 := by omega
      subst e'
      rw [h0] at hw
      cases hw
      exact hpc
  | print hj' hp => exact ⟨hc, hj, hd⟩
  | _ t0 w0 h0 hpc =>
    have hlen : t0 < s.threads.length := (List.getElem?_eq_some_iff.1 h0).1
    have h2 := hS t0 w0 h0
    have h3 := hd t0 w0 h0
    refine ⟨by simp only [List.length_set]; omega, by simp only [List.length_set]; omega, ?_⟩
    intro t w hw hlt
    simp only [lookup_set_iff] at hw
    rcases hw with ⟨rfl, -, rfl⟩ | ⟨hne, hw⟩
    · simp_all
      try omega
    · exact hd t w hw hlt

theorem sum_map_const {α : Type} (f : α → Nat) (c : Nat) (l : List α)
    (h : ∀ (t : Nat) (w : α), l[t]? = some w → f w = c) : (l.map f).sum = l.length * c := by
  induction l with
  | nil => simp
  | cons x xs ih =>
    have hx := h 0 x (by simp)
    have hxs := ih (fun t w hw => h (t + 1) w (by simpa using hw))
    simp only [List.map_cons, List.sum_cons, List.length_cons, hx, hxs, Nat.succ_mul]
    omega

theorem demo_measure_step {K : Nat} {s s' : State} {l : Label}
    (hS : ∀ (t : Nat) (w : Thread), s.threads[t]? = some w →
      (w.pc = PC.notStarted ↔ s.created ≤ t))
    (hs : Step K s l s') : measure K s' + 1 ≤ measure K s := by
  unfold measure
  cases hs with
  | join t0 w0 h0 ht hcr hpc =>
    have hlen : t0 < s.threads.length := (List.getElem?_eq_some_iff.1 h0).1
    simp only
    omega
  | print hj' hp =>
    simp only [hp, if_true]
    have : (if (some s.shared_counter : Option Int) = none then 1 else 0) = 0 := by simp
    rw [this]
    omega
  | _ t0 w0 h0 hpc =>
    have hlen : t0 < s.threads.length := (List.getElem?_eq_some_iff.1 h0).1
    have h1 := le_sum_map (potential K) _ _ _ h0
    have h2 := hS t0 w0 h0
    simp only [List.length_set, sum_map_set_eq (potential K) _ _ w0 _ h0]
    simp_all [potential]
    try omega

theorem demo_init_lookup (T t : Nat) (w : Thread) (h : (init T).threads[t]? = some w) :
    w = { i := 0, tmp := 0, pc := PC.notStarted } := by
  simp only [init] at h
  obtain ⟨hl, hw⟩ := List.getElem?_eq_some_iff.1 h
  rw [← hw]
  simp

theorem demo_allDone_lookup {s : State} (h : allDone s = true) (t : Nat) (w : Thread)
    (hw : s.threads[t]? = some w) : w.pc = PC.done := by
  unfold allDone at h
  rw [List.all_eq_true] at h
  have := h w (List.getElem?_mem hw)
  simpa using this

theorem total_of_allDone {T K : Nat} {s : State} (hI : Inv T K s) (hd : allDone s = true) :
    s.shared_counter = ((T * K : Nat) : Int) := by
  have hsum : (s.threads.map completed).sum = s.threads.length * K := by
    apply sum_map_const
    intro t w hw
    have hpc := demo_allDone_lookup hd t w hw
    have hi := (hI.loc t w hw).2.2 hpc
    simp [completed, hpc, hi]
  rw [hI.total, hsum, hI.len]

theorem allDone_of_joined {T K : Nat} {s : State} (hI : Inv T K s)
    (hj : s.joined = s.threads.length) : allDone s = true := by
  unfold allDone
  rw [List.all_eq_true]
  intro w hmem
  obtain ⟨t, ht⟩ := List.mem_iff_getElem?.1 hmem
  have hlt : t < s.joined := by
    rw [hj]
    exact (List.getElem?_eq_some_iff.1 ht).1
  simp [hI.main.2.2 t w ht hlt]

theorem demo_inv_init (T K : Nat) : Inv T K (init T) := by
  refine ⟨by simp [MutexDemo.init], ?_, ?_, ?_, ?_, ?_, ?_, ?_, ?_⟩
  · intro t w hw
    rw [demo_init_lookup T t w hw]
    simp [MutexDemo.init]
  · intro t w hw hh
    rw [demo_init_lookup T t w hw] at hh
    simp at hh
  · intro t hm
    simp [MutexDemo.init] at hm
  · intro t w hw hpc
    rw [demo_init_lookup T t w hw] at hpc
    simp at hpc
  · have hz : ((MutexDemo.init T).threads.map completed).sum = 0 := by
      apply sum_map_eq_zero
      intro t w hw
      rw [demo_init_lookup T t w hw]
      simp [completed]
    rw [hz]
    simp [MutexDemo.init]
  · intro t w hw
    rw [demo_init_lookup T t w hw]
    simp
  · refine ⟨by simp [MutexDemo.init], by simp [MutexDemo.init], ?_⟩
    intro t w hw hlt
    simp [MutexDemo.init] at hlt
  · intro v hv
    simp [MutexDemo.init] at hv

theorem demo_length_step {K : Nat} {s s' : State} {l : Label}
    (hs : Step K s l s') : s'.threads.length = s.threads.length := by
  cases hs <;> simp

theorem printed_step {T K : Nat} {s s' : State} {l : Label} (hI : Inv T K s)
    (hs : Step K s l s') :
    ∀ v : Int, s'.printed = some v → v = ((T * K : Nat) : Int) ∧
      s'.joined = s'.threads.length := by
  intro v hv
  cases hs with
  | join t0 w0 h0 ht hcr hpc =>
    have hlen : t0 < s.threads.length := (List.getElem?_eq_some_iff.1 h0).1
    have := (hI.printed v hv).2
    omega
  | print hj hp =>
    simp only [Option.some.injEq] at hv
    subst hv
    exact ⟨total_of_allDone hI (allDone_of_joined hI hj), hj⟩
  | _ t0 w0 h0 hpc =>
    have := hI.printed v hv
    simpa using this

theorem demo_inv_step {T K : Nat} {s s' : State} {l : Label} (hI : Inv T K s)
    (hs : Step K s l s') : Inv T K s' :=
  ⟨(demo_length_step hs).trans hI.len, start_step hI.start hs, holder_step hI.holder hs,
    owner_step hI.start hI.owner hs, tmp_step hI.holder hI.tmp hs,
    total_step hI.start hI.tmp hI.total hs, loc_step hI.loc hs,
    main_step hI.start hI.main hs, printed_step hI hs⟩

theorem demo_inv_exec {T K : Nat} (sched : List Label) {s s' : State} (hI : Inv T K s)
    (hs : exec K s sched = some s') : Inv T K s' := by
  induction sched generalizing s with
  | nil =>
    simp only [MutexDemo.exec, Option.some.injEq] at hs
    subst hs
    exact hI
  | cons l ls ih =>
    simp only [MutexDemo.exec] at hs
    split at hs
    · rename_i s1 h1
      exact ih (demo_inv_step hI (demo_step_sound h1)) hs
    · simp at hs

theorem demo_run_enabled (K : Nat) (s : State) (t : Nat) (w : Thread)
    (hw : s.threads[t]? = some w) (hc : canRun s w = true) :
    ∃ s', step K s (Label.run t) = some s' := by
  simp only [step, hw, threadStep]
  unfold canRun at hc
  cases hpc : w.pc <;> simp only [hpc] at hc ⊢ <;> try (simp at hc)
  all_goals first
    | exact ⟨_, rfl⟩
    | (split <;> exact ⟨_, rfl⟩)

theorem demo_holds_canRun (s : State) (w : Thread) (h : holds w.pc = true) : canRun s w = true := by
  unfold canRun
  cases hpc : w.pc <;> simp_all

/-- No deadlock: as long as `main` has not printed, some step is enabled. -/
theorem demo_progress {T K : Nat} {s : State} (hI : Inv T K s) (hp : s.printed = none) :
    ∃ (l : Label) (s' : State), step K s l = some s' := by
  by_cases hc : s.created < s.threads.length
  · have hstep : ∃ s', step K s Label.create = some s' := by
      simp only [step, List.getElem?_eq_getElem hc]
      exact ⟨_, rfl⟩
    obtain ⟨s', hs'⟩ := hstep
    exact ⟨Label.create, s', hs'⟩
  by_cases hex : ∃ (t : Nat) (w : Thread), s.threads[t]? = some w ∧ canRun s w = true
  · obtain ⟨t, w, hw, hr⟩ := hex
    obtain ⟨s', hs'⟩ := demo_run_enabled K s t w hw hr
    exact ⟨Label.run t, s', hs'⟩
  have hno : ∀ (t : Nat) (w : Thread), s.threads[t]? = some w → canRun s w = false := by
    intro t w hw
    cases h : canRun s w
    · rfl
    · exact absurd ⟨t, w, hw, h⟩ hex
  have hm : s.mutex = none := by
    cases hmu : s.mutex with
    | none => rfl
    | some t =>
      obtain ⟨w, hw, hh⟩ := hI.owner t hmu
      have := hno t w hw
      rw [demo_holds_canRun s w hh] at this
      cases this
  have hpcs : ∀ (t : Nat) (w : Thread), s.threads[t]? = some w → w.pc = PC.done := by
    intro t w hw
    have h1 := hno t w hw
    have h2 := hI.start t w hw
    have hlt : t < s.threads.length := (List.getElem?_eq_some_iff.1 hw).1
    unfold canRun at h1
    cases hpc : w.pc <;> simp_all
    omega
  have hcr : s.created = s.threads.length := by
    have := hI.main.1
    omega
  by_cases hj : s.joined < s.threads.length
  · have hw : s.threads[s.joined]? = some s.threads[s.joined] := List.getElem?_eq_getElem hj
    have hd := hpcs _ _ hw
    have hstep : ∃ s', step K s Label.join = some s' := by
      simp only [step, hcr, if_true, hw, hd]
      exact ⟨_, rfl⟩
    obtain ⟨s', hs'⟩ := hstep
    exact ⟨Label.join, s', hs'⟩
  · have hj' : s.joined = s.threads.length := by
      have := hI.main.2.1
      omega
    have hstep : ∃ s', step K s Label.print = some s' := by
      simp only [step, hj', hp, and_self, if_true]
      exact ⟨_, rfl⟩
    obtain ⟨s', hs'⟩ := hstep
    exact ⟨Label.print, s', hs'⟩

/-- From every state satisfying the invariants some run leads to the state in which
`main` has printed. -/
theorem demo_completion {T K : Nat} (m : Nat) :
    ∀ s : State, Inv T K s → measure K s ≤ m →
      ∃ (rest : List Label) (final : State),
        exec K s rest = some final ∧ final.printed = some ((T * K : Nat) : Int) := by
  induction m with
  | zero =>
    intro s hI hm
    cases hp : s.printed with
    | none =>
      obtain ⟨l, s1, h1⟩ := demo_progress hI hp
      have := demo_measure_step hI.start (demo_step_sound h1)
      omega
    | some v =>
      have := (hI.printed v hp).1
      subst this
      exact ⟨[], s, rfl, hp⟩
  | succ m ih =>
    intro s hI hm
    cases hp : s.printed with
    | none =>
      obtain ⟨l, s1, h1⟩ := demo_progress hI hp
      have hms := demo_measure_step hI.start (demo_step_sound h1)
      obtain ⟨rest, final, he, hf⟩ := ih s1 (demo_inv_step hI (demo_step_sound h1)) (by omega)
      refine ⟨l :: rest, final, ?_, hf⟩
      simp only [exec, h1]
      exact he
    | some v =>
      have := (hI.printed v hp).1
      subst this
      exact ⟨[], s, rfl, hp⟩

/-- C8. Mutex demo with `T` threads of `K` locked increments each, `shared_counter`
starting at 0. In every run: once all threads have returned, `shared_counter = T * K`;
the value printed by `main` after the joins is `T * K`; and the run can be continued
to the state in which `main` has printed `T * K`. With the constants of the source,
`T = 2` and `K = 100000`, the printed value is 200000. -/
theorem mutex_counter_total (T K : Nat) (sched : List Label) (s : State)
    (hrun : exec K (init T) sched = some s) :
    (allDone s = true → s.shared_counter = ((T * K : Nat) : Int)) ∧
    (∀ v : Int, s.printed = some v → v = ((T * K : Nat) : Int)) ∧
    (∃ (rest : List Label) (final : State),
      exec K s rest = some final ∧ final.printed = some ((T * K : Nat) : Int)) := by
  have hI := demo_inv_exec sched (demo_inv_init T K) hrun
  exact ⟨fun hd => total_of_allDone hI hd, fun v hv => (hI.printed v hv).1,
    demo_completion _ s hI (le_refl _)⟩

/-- C8 at a concrete run: two threads with one iteration each, `main` prints 2. -/
theorem mutex_counter_total_witness :
    exec 1 (init 2) demoSchedule = some demoFinal ∧ allDone demoFinal = true ∧
      demoFinal.shared_counter = ((2 * 1 : Nat) : Int) :=
  ⟨rfl, rfl, (mutex_counter_total 2 1 demoSchedule demoFinal rfl).1 rfl⟩

theorem sum_map_le_const {α : Type} (f : α → Nat) (c : Nat) (l : List α)
    (h : ∀ (t : Nat) (w : α), l[t]? = some w → f w ≤ c) : (l.map f).sum ≤ l.length * c := by
  induction l with
  | nil => simp
  | cons x xs ih =>
    have hx := h 0 x (by simp)
    have hxs := ih (fun t w hw => h (t + 1) w (by simpa using hw))
    simp only [List.map_cons, List.sum_cons, List.length_cons, Nat.succ_mul]
    omega

/-- The value of `shared_counter` never exceeds `T * K`. For `T * K < 2^31`, as with the
constants of the source, the C `int` never overflows. -/
theorem shared_counter_le {T K : Nat} {s : State} (hI : Inv T K s) :
    0 ≤ s.shared_counter ∧ s.shared_counter ≤ ((T * K : Nat) : Int) := by
  have hb : (s.threads.map completed).sum ≤ s.threads.length * K := by
    apply sum_map_le_const
    intro t w hw
    have hl := hI.loc t w hw
    unfold completed
    by_cases hu : w.pc = PC.unlock
    · have := hl.2.1 (Or.inl (by simp [hu]))
      simp only [hu, if_true]
      omega
    · have hz : (if w.pc = PC.unlock then 1 else 0) = 0 := by simp [hu]
      rw [hz]
      omega
  rw [hI.len] at hb
  rw [hI.total]
  exact ⟨by exact_mod_cast Nat.zero_le _, by exact_mod_cast hb⟩

end MutexDemo

/-! ## The client registry -/

namespace Registry

theorem load_cons (p q : Nat) (d : client_data) (h : List (Nat × client_data)) :
    load ((p, d) :: h) q = if p = q then some d else load h q := by
  unfold load
  by_cases e : p = q <;> simp [List.find?_cons, e]

theorem store_not_live (heap : List (Nat × client_data)) (p : Nat)
    (f : client_data → client_data) (h : live heap p = false) : store heap p f = heap := by
  induction heap with
  | nil => rfl
  | cons e es ih =>
    obtain ⟨q, d⟩ := e
    unfold live at h ih
    rw [load_cons] at h
    by_cases e : q = p
    · simp [e] at h
    · simp only [e, if_false] at h
      have := ih h
      unfold store at this ⊢
      simp only [List.map_cons, e, if_false, this]

theorem store_cons_self (heap : List (Nat × client_data)) (p : Nat) (d : client_data)
    (f : client_data → client_data) :
    store ((p, d) :: heap) p f = (p, f d) :: store heap p f := by
  simp [store]

theorem live_cons_ne (heap : List (Nat × client_data)) (p q : Nat) (d : client_data)
    (h : p ≠ q) : live ((p, d) :: heap) q = live heap q := by
  unfold live
  rw [load_cons]
  simp [h]

theorem free_cons_ne (heap : List (Nat × client_data)) (p q : Nat) (d : client_data)
    (h : p ≠ q) (hq : q ≠ 0) (hl : live heap q = true) :
    free ((p, d) :: heap) q = some ((p, d) :: heap.filter (fun e => e.1 ≠ q)) := by
  unfold free
  rw [live_cons_ne _ _ _ _ h]
  simp [hq, hl, h]

theorem free_live (heap : List (Nat × client_data)) (q : Nat) (hq : q ≠ 0)
    (hl : live heap q = true) : free heap q = some (heap.filter (fun e => e.1 ≠ q)) := by
  simp [free, hq, hl]

theorem name_written (name : List Nat) (h : name.length = 32) :
    (strncpy name default_client (32 - 1)).set (32 - 1) 0 =
      default_client ++ List.replicate 18 0 := by
  have hd : ∃ x, name.drop 31 = [x] := by
    have hl : (name.drop 31).length = 1 := by simp [h]
    match hm : name.drop 31, hl with
    | [x], _ => exact ⟨x, rfl⟩
  obtain ⟨x, hx⟩ := hd
  have e : strncpy name default_client (32 - 1) =
      default_client ++ List.replicate 17 0 ++ [x] := by
    unfold strncpy
    rw [show 32 - 1 = 31 from rfl, hx]
    rfl
  rw [e]
  rfl

theorem heap_after_init (p : Nat) (g : client_data) (heap : List (Nat × client_data))
    (hfresh : live heap p = false) (hg : g.name.length = 32) :
    store (store (store (store (store ((p, g) :: heap) p (fun c => { c with id := 1 })) p
      (fun c => { c with name := strncpy c.name default_client (32 - 1) })) p
      (fun c => { c with name := c.name.set (32 - 1) 0 })) p
      (fun c => { c with status := 0 })) p (fun c => { c with private_data := 0 }) =
      (p, default_data) :: heap := by
  simp only [store_cons_self, store_not_live _ _ _ hfresh]
  rw [name_written _ hg]
  rfl

theorem live_ne {heap : List (Nat × client_data)} {p q : Nat} (hq : live heap q = true)
    (hp : live heap p = false) : q ≠ p := by
  intro e
  rw [e, hp] at hq
  cases hq

theorem set_client_ok (c : Nat) (s : State) (hc : c ≠ 0) (hwf : wellFormed s) :
    ∃ s', set_client c s = some (0, s') ∧ s'.global_client = c ∧
      s'.heap = s.heap.filter (fun e => e.1 ≠ s.global_client ∨ s.global_client = 0) := by
  by_cases hgc : s.global_client = 0
  · simp only [set_client, hc, hgc, if_false, ne_eq, not_true_eq_false]
    refine ⟨_, rfl, rfl, ?_⟩
    simp
  · have hlive : live s.heap s.global_client = true := by
      rcases hwf with h | h
      · exact absurd h hgc
      · exact h
    simp only [set_client, hc, hgc, if_false, ne_eq, not_false_eq_true, if_true,
      free_live _ _ hgc hlive]
    refine ⟨_, rfl, rfl, ?_⟩
    simp [hgc]

theorem client_init_fail (g : client_data) (s : State) :
    client_init 0 g s =
      some (-ENOMEM,
        { s with log := s.log ++
            [Msg.err "client_init" "Failed to allocate memory for client"] }) := by
  simp [client_init]

theorem client_init_ok (p : Nat) (g : client_data) (s : State) (hp : p ≠ 0)
    (hwf : wellFormed s) (hfresh : live s.heap p = false) (hg : g.name.length = 32) :
    ∃ s', client_init p g s = some (0, s') ∧ s'.global_client = p ∧
      load s'.heap p = some default_data := by
  unfold client_init
  simp only [hp, if_false]
  rw [heap_after_init p g s.heap hfresh hg]
  by_cases hgc : s.global_client = 0
  · simp only [set_client, hp, hgc, if_false, ne_eq, not_true_eq_false]
    refine ⟨_, rfl, rfl, ?_⟩
    simp [load_cons]
  · have hlive : live s.heap s.global_client = true := by
      rcases hwf with h | h
      · exact absurd h hgc
      · exact h
    have hne : p ≠ s.global_client := fun e => live_ne hlive hfresh e.symm
    simp only [set_client, hp, hgc, if_false, ne_eq, not_false_eq_true, if_true,
      free_cons_ne _ _ _ _ hne hgc hlive, not_true_eq_false]
    refine ⟨_, rfl, rfl, ?_⟩
    simp [load_cons]

/-- C6, the claim fails on a registry state that the operations themselves produce: from
a registry with live blocks at 100 and 200, `set_client(100)` returns 0, a second
`set_client(100)` frees the block it then stores and returns 0, and in the state reached,
whose `global_client` is the address of a freed block, `set_client(200)` calls `free` on
that address and has no defined result. -/
theorem set_client_dangling_counterexample :
    set_client 100 twoBlocks = some (0, ownedState) ∧
      set_client 100 ownedState = some (0, danglingState) ∧
      live danglingState.heap danglingState.global_client = false ∧
      set_client 200 danglingState = none := by
  decide

/-- C6 as amended. For every registry state, `set_client(NULL)` returns `-EINVAL`, that
is -22, and leaves `global_client` and the heap as they are. For every state whose
`global_client` is `NULL` or the address of a live block, and every non-NULL `c`,
`set_client(c)` returns 0 and the next `get_client()` returns `c`; the state reached is
again of that kind when `c` is a live block other than the one held before. Whenever
`set_client` returns, its result is not positive. -/
theorem set_client_contract (s : State) (c : Nat) :
    (∃ s', set_client 0 s = some (-EINVAL, s') ∧ -EINVAL = -22 ∧
      s'.global_client = s.global_client ∧ s'.heap = s.heap) ∧
    (wellFormed s → c ≠ 0 →
      ∃ s', set_client c s = some (0, s') ∧ (get_client s').1 = c ∧
        (live s.heap c = true → c ≠ s.global_client → wellFormed s')) ∧
    (∀ r : Int × State, set_client c s = some r → r.1 ≤ 0) := by
  refine ⟨?_, ?_, ?_⟩
  · simp only [set_client, if_true]
    exact ⟨_, rfl, rfl, rfl, rfl⟩
  · intro hwf hc
    obtain ⟨s', h1, h2, h3⟩ := set_client_ok c s hc hwf
    refine ⟨s', h1, h2, ?_⟩
    intro hl hne
    right
    rw [h2, h3]
    unfold live load at hl ⊢
    rw [Option.isSome_map'] at hl ⊢
    rw [List.find?_isSome] at hl ⊢
    obtain ⟨e, he, hec⟩ := hl
    refine ⟨e, ?_, hec⟩
    rw [List.mem_filter]
    refine ⟨he, ?_⟩
    have : e.1 = c := by simpa using hec
    simp [this, hne]
  · intro r hr
    by_cases hc : c = 0
    · subst hc
      simp only [set_client, if_true, Option.some.injEq] at hr
      subst hr
      simp [EINVAL]
    · unfold set_client at hr
      simp only [hc, if_false] at hr
      split at hr
      · simp only [Option.some.injEq] at hr
        subst hr
        simp
      · simp at hr

/-- C6 as amended, at concrete inputs: on the registry with live blocks at 100 and 200
and no client set, `set_client(100)` returns 0, after which `get_client()` returns 100
and the registry holds a live block. -/
theorem set_client_contract_witness :
    wellFormed twoBlocks ∧
      ∃ s', set_client 100 twoBlocks = some (0, s') ∧ (get_client s').1 = 100 ∧
        (live twoBlocks.heap 100 = true → 100 ≠ twoBlocks.global_client → wellFormed s') :=
  ⟨Or.inl rfl, (set_client_contract twoBlocks 100).2.1 (Or.inl rfl) (by decide)⟩

/-- C7. Life cycle of the client. `get_client()` returns `NULL` at program start.
`client_init()` returns 0 exactly when `malloc` succeeds; when it fails the result is
`-ENOMEM`, that is -12, with `global_client` and the heap as before. In a well-formed
registry, after a successful `client_init()` with a fresh block of 32 name bytes,
`get_client()` returns the new block, which holds `id = 1`, the string
`"default_client"` ended by NUL within the 32 bytes, `status = 0` and
`private_data = NULL`. After `client_cleanup()`, `get_client()` returns `NULL` and a
second `client_cleanup()` changes nothing. `main`, when `malloc` succeeds, prints the
client, frees it and exits with status 0. All these calls have a defined result. -/
theorem client_lifecycle (s : State) (p : Nat) (g : client_data) (hwf : wellFormed s)
    (hfresh : live s.heap p = false) (hg : g.name.length = 32) :
    (get_client init).1 = 0 ∧
    (∃ r : Int × State, client_init p g s = some r ∧ (r.1 = 0 ↔ p ≠ 0) ∧
      (p = 0 → r.1 = -ENOMEM ∧ -ENOMEM = -12 ∧ r.2.global_client = s.global_client ∧
        r.2.heap = s.heap) ∧
      (p ≠ 0 → (get_client r.2).1 = p ∧ load r.2.heap p = some default_data)) ∧
    (default_data.id = 1 ∧ cstring default_data.name = default_client ∧
      default_data.name.length = 32 ∧ default_data.status = 0 ∧
      default_data.private_data = 0) ∧
    (∃ s1 : State, client_cleanup s = some s1 ∧ (get_client s1).1 = 0 ∧
      client_cleanup s1 = some s1) ∧
    (p ≠ 0 → ∃ r : Int × State, main p g init = some r ∧ r.1 = 0 ∧ r.2.global_client = 0 ∧
      r.2.heap = [] ∧ Msg.client 1 default_client ∈ r.2.log) := by
  refine ⟨rfl, ?_, by decide, ?_, ?_⟩
  · by_cases hp : p = 0
    · subst hp
      refine ⟨_, client_init_fail g s, by simp [ENOMEM], fun _ => ⟨rfl, rfl, rfl, rfl⟩, ?_⟩
      intro h
      exact absurd rfl h
    · obtain ⟨s', h1, h2, h3⟩ := client_init_ok p g s hp hwf hfresh hg
      exact ⟨(0, s'), h1, by simp [hp], fun h => absurd h hp, fun _ => ⟨h2, h3⟩⟩
  · by_cases hgc : s.global_client = 0
    · exact ⟨s, by simp [client_cleanup, hgc], hgc, by simp [client_cleanup, hgc]⟩
    · have hlive : live s.heap s.global_client = true := by
        rcases hwf with h | h
        · exact absurd h hgc
        · exact h
      simp only [client_cleanup, ne_eq, hgc, not_false_eq_true, if_true,
        free_live _ _ hgc hlive]
      refine ⟨_, rfl, rfl, ?_⟩
      simp
  · intro hp
    have hf : live init.heap p = false := rfl
    have hmain : main p g init = some (0,
        { global_client := 0, heap := [],
          log := [Msg.info "set_client" "Client set successfully",
                  Msg.info "client_init" "Client initialized successfully",
                  Msg.client 1 default_client,
                  Msg.info "client_cleanup" "Client data freed"] }) := by
      unfold main client_init
      simp only [hp, if_false]
      rw [heap_after_init p g init.heap hf hg]
      simp [set_client, get_client, hp, init, load_cons, client_cleanup, free, live]
      decide
    exact ⟨_, hmain, rfl, rfl, rfl, by simp⟩

/-- C7 at concrete inputs: from the initial registry, with `malloc` returning address 100
and a block of 32 arbitrary bytes. -/
theorem client_lifecycle_witness :
    ∃ r : Int × State, client_init 100 ⟨7, List.replicate 32 9, 1, 1⟩ init = some r ∧
      (r.1 = 0 ↔ 100 ≠ 0) ∧
      (100 = 0 → r.1 = -ENOMEM ∧ -ENOMEM = -12 ∧ r.2.global_client = init.global_client ∧
        r.2.heap = init.heap) ∧
      (100 ≠ 0 → (get_client r.2).1 = 100 ∧ load r.2.heap 100 = some default_data) :=
  (client_lifecycle init 100 ⟨7, List.replicate 32 9, 1, 1⟩ (Or.inl rfl) rfl rfl).2.1

end Registry
